import Mathlib

/-! RadioArtworkResolver: a request-coalescing artwork cache.

A shallow embedding of `src/radioartworkresolver.cpp` and `radioartworkresolver.h`.

* Qt value types (`QString`, `QUrl`, `QJsonValue`, `QNetworkRequest`) are modelled by plain
  data; the Qt functions the resolver calls on them are modelled next to them.
* The resolver is the record of its four containers.  A member function becomes a function
  from the state before the call to the state after it, paired with the list of effects the
  call produced, in order: `artworkResolved` signal emissions and network `get` requests.
* What the resolver reads from its surroundings during a call (validity of a persistent
  model index, the configured token, the reply object the network manager hands back, Qt's
  URL parser) is passed in as an `Env`.
* Qt's Unicode case tables, which `QString::toLower` consults, are a parameter
  (`QUnicodeTables`): every general statement holds for all tables that lower-case the Basic
  Latin block as Unicode does.  Examples are evaluated in the sample table
  `basicLatinTables`.  Slots connected to `artworkResolved` are assumed not
  to call back into the resolver while the signal is being emitted.
-/

/-! ## Qt strings -/

/-- A `QString`, as the sequence of its characters. -/
abbrev QString := List Char

/-- The code points above U+007F of the Unicode categories Zs, Zl and Zp. -/
def QChar.isSeparator (u : Nat) : Bool :=
  u == 0xa0 || u == 0x1680 || (0x2000 ≤ u && u ≤ 0x200a) || u == 0x2028 || u == 0x2029
    || u == 0x202f || u == 0x205f || u == 0x3000

/-- Qt's `QChar::isSpace`: space, U+0009..U+000D, U+0085, U+00A0 and the separator categories. -/
def QChar.isSpace (c : Char) : Bool :=
  let u := c.toNat
  u == 0x20 || (0x09 ≤ u && u ≤ 0x0d)
    || (u > 127 && (u == 0x85 || u == 0xa0 || QChar.isSeparator u))

/-- Qt's `QString::trimmed`: whitespace removed from both ends. -/
def QString.trimmed (s : QString) : QString :=
  ((s.dropWhile QChar.isSpace).reverse.dropWhile QChar.isSpace).reverse

/-- The lower-case mapping of Qt's Unicode tables, which `QString::toLower` applies code
point by code point.  The table itself belongs to Qt and is taken as given; a code point may
map to several (U+0130 maps to `i` followed by U+0307).  What is used of it: on the Basic
Latin block it is the mapping of the letters `A` to `Z`; no code point maps to nothing; and
outside the Basic Latin block no mapping produces a space or a hyphen-minus. -/
class QUnicodeTables where
  /-- The lower-case form of a code point. -/
  lowerCase : Char → List Char
  /-- On the Basic Latin block the mapping is that of the letters `A` to `Z`. -/
  lowerCase_basicLatin : ∀ c : Char, c.toNat < 128 → lowerCase c = [c.toLower]
  /-- No code point maps to the empty string. -/
  lowerCase_ne_nil : ∀ c : Char, lowerCase c ≠ []
  /-- Outside the Basic Latin block no mapping produces a space or a hyphen-minus. -/
  lowerCase_other : ∀ c : Char, 128 ≤ c.toNat → ' ' ∉ lowerCase c ∧ '-' ∉ lowerCase c

/-- Qt's `QString::toLower`: every code point is replaced by its lower-case form. -/
def QString.toLower [QUnicodeTables] : QString → QString
  | [] => []
  | c :: rest => QUnicodeTables.lowerCase c ++ QString.toLower rest

/-- Qt's `QString::contains(const QString &)`, case sensitive: `sub` occurs in `s`. -/
def QString.contains : QString → QString → Bool
  | [], sub => sub.isEmpty
  | c :: rest, sub => sub.isPrefixOf (c :: rest) || QString.contains rest sub

/-- Qt's `QString::indexOf(const QString &)`: the position of the first occurrence of `sub`
in `s`, `none` (Qt's -1) when there is none. -/
def QString.indexOf : QString → QString → Option Nat
  | [], sub => if sub.isEmpty then some 0 else none
  | c :: rest, sub =>
    if sub.isPrefixOf (c :: rest) then some 0 else (QString.indexOf rest sub).map (· + 1)

/-- The scan of `QString::split`: `skip` characters of a matched separator are still to be
passed over, `cur` is the segment collected so far. -/
def QString.splitFrom (sep : QString) : Nat → QString → QString → List QString
  | _, cur, [] => [cur]
  | skip + 1, cur, _ :: rest => QString.splitFrom sep skip cur rest
  | 0, cur, c :: rest =>
    if sep.isPrefixOf (c :: rest) then
      cur :: QString.splitFrom sep (sep.length - 1) [] rest
    else
      QString.splitFrom sep 0 (cur ++ [c]) rest

/-- Qt's `QString::split(const QString &sep)` for a non-empty separator, with the default
`Qt::KeepEmptyParts`: the segments between the non-overlapping occurrences of `sep`, found
from left to right. -/
def QString.split (s sep : QString) : List QString :=
  QString.splitFrom sep 0 [] s

/-- Qt's `QStringList::join(const QString &sep)`. -/
def QStringList.join (parts : List QString) (sep : QString) : QString :=
  List.intercalate sep parts

/-- The call `QStringLiteral("%1 - %2").arg(a1, a2)`: both place markers are replaced in one
pass, so the arguments are inserted verbatim. -/
def QString.arg (a1 a2 : QString) : QString :=
  a1 ++ " - ".toList ++ a2

/-- The string starts with a whitespace character. -/
def QString.startsWithSpace : QString → Bool
  | [] => false
  | c :: _ => QChar.isSpace c

/-- The string ends with a whitespace character. -/
def QString.endsWithSpace (s : QString) : Bool :=
  QString.startsWithSpace s.reverse

/-! ## Qt URLs -/

/-- A `QUrl`, by its components.  A component is `none` when it is absent; the query is kept
as its list of items; `error` records that parsing or a setter reported a validity error. -/
structure QUrl where
  scheme : Option QString := none
  userInfo : Option QString := none
  host : Option QString := none
  port : Option Nat := none
  path : QString := []
  query : Option (List (QString × QString)) := none
  fragment : Option QString := none
  error : Bool := false
deriving DecidableEq

instance : Inhabited QUrl := ⟨{}⟩

/-- Qt's `QUrl::isEmpty`: no component is present and the path is empty. -/
def QUrl.isEmpty (u : QUrl) : Bool :=
  u.scheme.isNone && u.userInfo.isNone && u.host.isNone && u.port.isNone && u.path.isEmpty
    && u.query.isNone && u.fragment.isNone

/-- Qt's `QUrl::isValid`: the URL is non-empty and has no validity error. -/
def QUrl.isValid (u : QUrl) : Bool :=
  !u.isEmpty && !u.error

/-- Qt's `QUrl::host()`: the host, empty when absent. -/
def QUrl.hostName (u : QUrl) : QString :=
  u.host.getD []

/-! ## Qt JSON -/

/-- A `QJsonValue`.  Numbers are kept as their literal text. -/
inductive QJsonValue where
  | null
  | bool (b : Bool)
  | double (literal : QString)
  | string (s : QString)
  | array (items : List QJsonValue)
  | object (members : List (QString × QJsonValue))
  | undefined

/-- Qt's `QJsonObject::value(key)`: the member named `key`, `Undefined` when there is none. -/
def QJsonObject.value : List (QString × QJsonValue) → QString → QJsonValue
  | [], _ => QJsonValue.undefined
  | (k, v) :: rest, key => if k = key then v else QJsonObject.value rest key

/-- Qt's `QJsonValue::toArray()`: the items of an array, the empty array otherwise. -/
def QJsonValue.toArray : QJsonValue → List QJsonValue
  | QJsonValue.array items => items
  | _ => []

/-- Qt's `QJsonValue::toObject()`: the members of an object, the empty object otherwise. -/
def QJsonValue.toObject : QJsonValue → List (QString × QJsonValue)
  | QJsonValue.object members => members
  | _ => []

/-- Qt's `QJsonValue::toString()`: the text of a string, the null string otherwise. -/
def QJsonValue.toQString : QJsonValue → QString
  | QJsonValue.string s => s
  | _ => []

/-- Qt's `QJsonArray::first()`: the element at position 0, `Undefined` when there is none. -/
def QJsonArray.first : List QJsonValue → QJsonValue
  | [] => QJsonValue.undefined
  | v :: _ => v

/-- What `QJsonDocument::fromJson(payload)` returns: the null document when the payload does
not parse, an array document or an object document. -/
inductive QJsonDocument where
  | null
  | array (items : List QJsonValue)
  | object (members : List (QString × QJsonValue))

/-- Qt's `QJsonDocument::isObject()`. -/
def QJsonDocument.isObject : QJsonDocument → Bool
  | QJsonDocument.object _ => true
  | _ => false

/-- Qt's `QJsonDocument::object()`: the members of an object document, the empty object
otherwise. -/
def QJsonDocument.members : QJsonDocument → List (QString × QJsonValue)
  | QJsonDocument.object members => members
  | _ => []

/-! ## Qt containers

The resolver never iterates over its hashes or its set, so each is modelled by its lookup
function. -/

/-- A `QHash<K, V>`. -/
def QHash (K V : Type) := K → Option V

/-- A `QSet<K>`. -/
def QSet (K : Type) := K → Bool

namespace QHash

variable {K V : Type}

/-- A default-constructed hash. -/
def empty : QHash K V := fun _ => none

/-- Qt's `QHash::contains`. -/
def contains (m : QHash K V) (k : K) : Bool := (m k).isSome

/-- Qt's `QHash::value`: the stored value, a default-constructed one when the key is absent. -/
def value [Inhabited V] (m : QHash K V) (k : K) : V := (m k).getD default

/-- Qt's `QHash::insert`: the value of `k` is set, replacing an earlier one. -/
def insert [DecidableEq K] (m : QHash K V) (k : K) (v : V) : QHash K V :=
  fun x => if x = k then some v else m x

/-- Qt's `QHash::remove`; also the hash that `QHash::take` leaves behind. -/
def remove [DecidableEq K] (m : QHash K V) (k : K) : QHash K V :=
  fun x => if x = k then none else m x

end QHash

namespace QSet

variable {K : Type}

/-- A default-constructed set. -/
def empty : QSet K := fun _ => false

/-- Qt's `QSet::contains`. -/
def contains (s : QSet K) (k : K) : Bool := s k

/-- Qt's `QSet::insert`. -/
def insert [DecidableEq K] (s : QSet K) (k : K) : QSet K :=
  fun x => if x = k then true else s x

/-- Qt's `QSet::remove`. -/
def remove [DecidableEq K] (s : QSet K) (k : K) : QSet K :=
  fun x => if x = k then false else s x

end QSet

/-! ## Network requests -/

/-- A `QPersistentModelIndex`, by the identity of the row it follows.  Whether it is still
valid is a fact of the model it points into, read through `Env.isValid`. -/
abbrev QPersistentModelIndex := Nat

/-- A `QNetworkReply *`. -/
abbrev QNetworkReply := Nat

/-- Qt's `QNetworkRequest::RedirectPolicy`. -/
inductive RedirectPolicy where
  | manualRedirectPolicy
  | noLessSafeRedirectPolicy
  | sameOriginRedirectPolicy
  | userVerifiedRedirectPolicy
deriving DecidableEq

/-- A `QNetworkRequest`: its URL, its headers by name and its redirect policy attribute. -/
structure QNetworkRequest where
  url : QUrl
  rawHeaders : List (QString × QString) := []
  redirectPolicy : RedirectPolicy := RedirectPolicy.manualRedirectPolicy
deriving DecidableEq

/-- Qt's `QNetworkRequest::setRawHeader`: the header is set, replacing an earlier value. -/
def QNetworkRequest.setRawHeader (r : QNetworkRequest) (name value : QString) :
    QNetworkRequest :=
  { r with rawHeaders := (r.rawHeaders.filter (fun h => h.1 ≠ name)) ++ [(name, value)] }

/-- An effect of a call that is visible outside the resolver. -/
inductive Event where
  | artworkResolved (index : QPersistentModelIndex) (url : QUrl)
  | get (reply : QNetworkReply) (request : QNetworkRequest)
deriving DecidableEq

/-- What a call of the resolver reads from its surroundings. -/
structure Env where
  /-- Whether `QPersistentModelIndex::isValid` holds of an index during the call. -/
  isValid : QPersistentModelIndex → Bool
  /-- The value of `Elisa::ElisaConfiguration::discogsToken()`. -/
  discogsToken : QString
  /-- The reply object `mNetworkAccess.get` returns when it is called. -/
  reply : QNetworkReply
  /-- The constructor `QUrl(const QString &)`, Qt's URL parser. -/
  parseUrl : QString → QUrl

/-! ## The resolver -/

/-- The parsed form of `kDiscogsEndpoint`, `https://api.discogs.com/database/search`. -/
def kDiscogsEndpoint : QUrl :=
  { scheme := some "https".toList, host := some "api.discogs.com".toList,
    path := "/database/search".toList }

/-- The constant `kUserAgent`. -/
def kUserAgent : QString := "Elisa (https://kde.org/elisa)".toList

/-- The data members of `RadioArtworkResolver` (the network manager is represented by
`Env.reply`). -/
structure RadioArtworkResolver where
  mCache : QHash QString QUrl := QHash.empty
  mPending : QHash QString (List QPersistentModelIndex) := QHash.empty
  mReplyKey : QHash QNetworkReply QString := QHash.empty
  mInFlight : QSet QString := QSet.empty

namespace RadioArtworkResolver

/-- The member function `parseArtistTitle`: the two reference parameters are passed in and
returned next to the result. -/
def parseArtistTitle (streamTitle artistOrStation artist title : QString) :
    Bool × QString × QString :=
  let trimmedTitle := QString.trimmed streamTitle
  let separator := " - ".toList
  let out : QString × QString :=
    if QString.contains trimmedTitle separator then
      let parts := QString.split trimmedTitle separator
      if parts.length ≥ 2 then
        (QString.trimmed (parts.headD []),
          QString.trimmed (QStringList.join (parts.drop 1) separator))
      else
        (artist, title)
    else if !(QString.trimmed artistOrStation).isEmpty && !trimmedTitle.isEmpty then
      (QString.trimmed artistOrStation, trimmedTitle)
    else
      (artist, title)
  (!out.1.isEmpty && !out.2.isEmpty, out.1, out.2)

/-- The member function `isDiFmStream`. -/
def isDiFmStream [QUnicodeTables] (streamUrl : QUrl) : Bool :=
  let host := QString.toLower streamUrl.hostName
  QString.contains host "di.fm".toList || QString.contains host "digitallyimported".toList

/-- The member function `buildRequest`. -/
def buildRequest (url : QUrl) : QNetworkRequest :=
  let request : QNetworkRequest := { url := url }
  let request := request.setRawHeader "User-Agent".toList kUserAgent
  let request := request.setRawHeader "Content-Type".toList "application/json".toList
  let request := request.setRawHeader "Accept".toList "application/json".toList
  { request with redirectPolicy := RedirectPolicy.noLessSafeRedirectPolicy }

/-- The loop at the end of `finishKey`: one `artworkResolved` per valid index, in order. -/
def notifyPending (isValid : QPersistentModelIndex → Bool) (url : QUrl) :
    List QPersistentModelIndex → List Event
  | [] => []
  | index :: rest =>
    if isValid index then
      Event.artworkResolved index url :: notifyPending isValid url rest
    else
      notifyPending isValid url rest

/-- The member function `finishKey`. -/
def finishKey (env : Env) (s : RadioArtworkResolver) (key : QString) (url : QUrl) :
    RadioArtworkResolver × List Event :=
  let s := { s with mInFlight := s.mInFlight.remove key }
  let s := if url.isValid && !url.isEmpty then
      { s with mCache := s.mCache.insert key url }
    else s
  let pending := s.mPending.value key
  let s := { s with mPending := s.mPending.remove key }
  if url.isEmpty then
    (s, [])
  else
    (s, notifyPending env.isValid url pending)

/-- The request `startDiscogsLookup` sends for `artist` and `title` with the trimmed
`token`. -/
def lookupRequest (artist title token : QString) : QNetworkRequest :=
  let query : List (QString × QString) :=
    [("artist".toList, artist), ("track".toList, title), ("type".toList, "release".toList),
      ("per_page".toList, "1".toList), ("page".toList, "1".toList)]
  let url := { kDiscogsEndpoint with query := some query }
  let request := buildRequest url
  let request := request.setRawHeader "Authorization".toList ("Discogs token=".toList ++ token)
  request.setRawHeader "Accept".toList "application/json".toList

/-- The member function `startDiscogsLookup`, up to and including the `connect`; the
connected handler is `replyFinished`. -/
def startDiscogsLookup (env : Env) (s : RadioArtworkResolver) (key artist title : QString) :
    RadioArtworkResolver × List Event :=
  let token := QString.trimmed env.discogsToken
  if token.isEmpty then
    finishKey env s key {}
  else
    let request := lookupRequest artist title token
    ({ s with mReplyKey := s.mReplyKey.insert env.reply key }, [Event.get env.reply request])

/-- The handler that `startDiscogsLookup` connects to `QNetworkReply::finished`, run for
`reply`.  `networkError` tells whether `reply->error()` differs from `NoError`, and `document`
is what `QJsonDocument::fromJson` makes of the payload. -/
def replyFinished (env : Env) (s : RadioArtworkResolver) (reply : QNetworkReply)
    (networkError : Bool) (document : QJsonDocument) : RadioArtworkResolver × List Event :=
  let key := s.mReplyKey.value reply
  let s := { s with mReplyKey := s.mReplyKey.remove reply }
  if networkError then
    finishKey env s key {}
  else if !document.isObject then
    finishKey env s key {}
  else
    let results := (QJsonObject.value document.members "results".toList).toArray
    if results.isEmpty then
      finishKey env s key {}
    else
      let resultObject := (QJsonArray.first results).toObject
      let coverUrl := (QJsonObject.value resultObject "cover_image".toList).toQString
      let coverUrl :=
        if coverUrl.isEmpty then (QJsonObject.value resultObject "thumb".toList).toQString
        else coverUrl
      finishKey env s key (env.parseUrl coverUrl)

/-- The key computed in `requestArtwork`. -/
def canonicalKey [QUnicodeTables] (artist trackTitle : QString) : QString :=
  QString.toLower (QString.trimmed (QString.arg artist trackTitle))

/-- The member function `requestArtwork`. -/
def requestArtwork [QUnicodeTables] (env : Env) (s : RadioArtworkResolver)
    (index : QPersistentModelIndex)
    (streamUrl : QUrl) (title artistOrStation : QString) :
    RadioArtworkResolver × List Event :=
  if !env.isValid index || !isDiFmStream streamUrl then
    (s, [])
  else
    let parsed := parseArtistTitle title artistOrStation [] []
    if !parsed.1 then
      (s, [])
    else
      let artist := parsed.2.1
      let trackTitle := parsed.2.2
      let key := canonicalKey artist trackTitle
      if s.mCache.contains key then
        let cached := s.mCache.value key
        if cached.isValid && !cached.isEmpty then
          (s, [Event.artworkResolved index cached])
        else
          (s, [])
      else
        let s := { s with mPending := s.mPending.insert key (s.mPending.value key ++ [index]) }
        if s.mInFlight.contains key then
          (s, [])
        else
          let s := { s with mInFlight := s.mInFlight.insert key }
          startDiscogsLookup env s key artist trackTitle

end RadioArtworkResolver


/-! ## Executions -/

namespace RadioArtworkResolver

/-- The arguments of a `requestArtwork` call are accepted: the index is valid, the stream is
eligible and the text parses. -/
def accepted [QUnicodeTables] (env : Env) (index : QPersistentModelIndex) (streamUrl : QUrl)
    (title artistOrStation : QString) : Bool :=
  env.isValid index && isDiFmStream streamUrl
    && (parseArtistTitle title artistOrStation [] []).1

/-- The artist `requestArtwork` parses out of its text arguments. -/
def requestArtist (title artistOrStation : QString) : QString :=
  (parseArtistTitle title artistOrStation [] []).2.1

/-- The track title `requestArtwork` parses out of its text arguments. -/
def requestTitle (title artistOrStation : QString) : QString :=
  (parseArtistTitle title artistOrStation [] []).2.2

/-- The key `requestArtwork` derives from its text arguments. -/
def requestKey [QUnicodeTables] (title artistOrStation : QString) : QString :=
  canonicalKey (requestArtist title artistOrStation) (requestTitle title artistOrStation)

/-- One `requestArtwork` call: its surroundings and its arguments. -/
structure Call where
  env : Env
  index : QPersistentModelIndex
  streamUrl : QUrl
  title : QString
  artistOrStation : QString

/-- The call made on the state `s`. -/
def Call.run [QUnicodeTables] (c : Call) (s : RadioArtworkResolver) :
    RadioArtworkResolver × List Event :=
  requestArtwork c.env s c.index c.streamUrl c.title c.artistOrStation

/-- The call is accepted and derives the key `key`. -/
def Call.acceptedFor [QUnicodeTables] (c : Call) (key : QString) : Bool :=
  accepted c.env c.index c.streamUrl c.title c.artistOrStation
    && decide (requestKey c.title c.artistOrStation = key)

/-- Consecutive `requestArtwork` calls with no reply finishing in between: the final state and
the effects of all calls, in order. -/
def runCalls [QUnicodeTables] :
    RadioArtworkResolver → List Call → RadioArtworkResolver × List Event
  | s, [] => (s, [])
  | s, c :: cs => ((runCalls (c.run s).1 cs).1, (c.run s).2 ++ (runCalls (c.run s).1 cs).2)

/-- The states the resolver can be in between two operations: it starts with empty
containers; `requestArtwork` may be called with any arguments, the network manager handing
out a reply object that is not one of the outstanding ones; and an outstanding reply may
finish, with any outcome. -/
inductive Reachable [QUnicodeTables] : RadioArtworkResolver → Prop
  | init : Reachable {}
  | request {s : RadioArtworkResolver} (env : Env) (index : QPersistentModelIndex)
      (streamUrl : QUrl) (title artistOrStation : QString) :
      Reachable s → s.mReplyKey.contains env.reply = false →
      Reachable (requestArtwork env s index streamUrl title artistOrStation).1
  | finished {s : RadioArtworkResolver} (env : Env) (reply : QNetworkReply)
      (networkError : Bool) (document : QJsonDocument) :
      Reachable s → s.mReplyKey.contains reply = true →
      Reachable (replyFinished env s reply networkError document).1

/-- One operation of the resolver, from the state before it to the state after it: a
`requestArtwork` call, in which the network manager hands out a reply object that is not
outstanding, or the handler of an outstanding reply. -/
inductive Step [QUnicodeTables] : RadioArtworkResolver → RadioArtworkResolver → Prop
  | request (s : RadioArtworkResolver) (env : Env) (index : QPersistentModelIndex)
      (streamUrl : QUrl) (title artistOrStation : QString) :
      s.mReplyKey.contains env.reply = false →
      Step s (requestArtwork env s index streamUrl title artistOrStation).1
  | finished (s : RadioArtworkResolver) (env : Env) (reply : QNetworkReply)
      (networkError : Bool) (document : QJsonDocument) :
      s.mReplyKey.contains reply = true →
      Step s (replyFinished env s reply networkError document).1

/-- The bookkeeping invariant of the four containers. -/
structure Inv (s : RadioArtworkResolver) : Prop where
  /-- A key has pending waiters exactly when it is in flight. -/
  pending_iff : ∀ k, (s.mPending k).isSome = true ↔ s.mInFlight k = true
  /-- No stored waiter sequence is empty. -/
  pending_ne : ∀ k, s.mPending k ≠ some []
  /-- A cached key is not in flight. -/
  cache_inflight : ∀ k, (s.mCache k).isSome = true → s.mInFlight k = false
  /-- Every cached URL is valid and non-empty. -/
  cache_valid : ∀ k u, s.mCache k = some u → u.isValid = true ∧ u.isEmpty = false
  /-- No two outstanding replies belong to the same key. -/
  reply_inj : ∀ r1 r2 k, s.mReplyKey r1 = some k → s.mReplyKey r2 = some k → r1 = r2
  /-- The keys in flight are the keys of the outstanding replies. -/
  inflight_iff : ∀ k, s.mInFlight k = true ↔ ∃ r, s.mReplyKey r = some k

/-! ## Sample data -/

/-- A sample of Qt's tables for evaluating examples: the table that lower-cases the letters
`A` to `Z` and keeps every other code point.  It agrees with Unicode on Basic Latin text. -/
instance basicLatinTables : QUnicodeTables where
  lowerCase c := [c.toLower]
  lowerCase_basicLatin _ _ := rfl
  lowerCase_ne_nil _ := List.cons_ne_nil _ _
  lowerCase_other c hc := by
    have h : c.toLower = c := by
      unfold Char.toLower
      dsimp only
      rw [if_neg (fun h => by omega)]
    show ' ' ∉ [c.toLower] ∧ '-' ∉ [c.toLower]
    rw [h]
    constructor <;>
    · intro hm
      rw [List.mem_singleton] at hm
      rw [← hm] at hc
      exact absurd hc (by decide)

/-- Surroundings in which every index is valid and no token is configured. -/
def envNoToken : Env :=
  { isValid := fun _ => true, discogsToken := [], reply := 0, parseUrl := fun _ => {} }

/-- Surroundings in which every index but number 2 is valid and a token is configured. -/
def envToken : Env :=
  { isValid := fun i => i != 2, discogsToken := " secret ".toList, reply := 7,
    parseUrl := fun _ => {} }

/-- The stream `https://listen.di.fm/public3`. -/
def diFmUrl : QUrl :=
  { scheme := some "https".toList, host := some "listen.di.fm".toList,
    path := "/public3".toList }

/-- The stream `https://example.com/stream`. -/
def exampleUrl : QUrl :=
  { scheme := some "https".toList, host := some "example.com".toList,
    path := "/stream".toList }

/-- An artwork URL, `http://img`. -/
def imgUrl : QUrl :=
  { scheme := some "http".toList, host := some "img".toList }

/-- What `QUrl("http://a b/c.jpg")` is: the components are kept, the host is rejected. -/
def brokenUrl : QUrl :=
  { scheme := some "http".toList, path := "/c.jpg".toList, error := true }

/-- Surroundings with a whitespace-only token. -/
def envBlankToken : Env :=
  { isValid := fun _ => true, discogsToken := " \t ".toList, reply := 0,
    parseUrl := fun _ => {} }

/-- Surroundings in which Qt's URL parser yields `imgUrl`. -/
def envImg : Env :=
  { isValid := fun _ => true, discogsToken := "secret".toList, reply := 8,
    parseUrl := fun _ => imgUrl }

/-- The reply document `{"results":[{"cover_image":"http://img"}]}`. -/
def imgDocument : QJsonDocument :=
  QJsonDocument.object
    [("results".toList,
      QJsonValue.array
        [QJsonValue.object [("cover_image".toList, QJsonValue.string "http://img".toList)]])]

/-- The state after waiter 1 asked for "A - B" with a token configured: the key "a - b" is in
flight, its reply object is number 7. -/
def stateInFlight : RadioArtworkResolver :=
  (requestArtwork envToken {} 1 diFmUrl "A - B".toList []).1

/-- The state after the reply of `stateInFlight` finished with `imgDocument`: the key
"a - b" is cached. -/
def stateCached : RadioArtworkResolver :=
  (replyFinished envImg stateInFlight 7 false imgDocument).1

/-- Waiter 1 asks for "A - B". -/
def callOne : Call :=
  { env := envToken, index := 1, streamUrl := diFmUrl, title := "A - B".toList,
    artistOrStation := [] }

/-- Waiter 3 asks for the same track, spelled " a - b ", on station "X". -/
def callThree : Call :=
  { env := envNoToken, index := 3, streamUrl := diFmUrl, title := " a - b ".toList,
    artistOrStation := "X".toList }

/-- The state after the lookup of `stateCached` finished and waiter 2 asked for "C - D": the
key "a - b" is cached, the key "c - d" is in flight with reply number 8. -/
def stateCachedBusy : RadioArtworkResolver :=
  (requestArtwork envImg stateCached 2 diFmUrl "C - D".toList []).1

/-- The reply document `{"results":[{"thumb":"http://img"},{"cover_image":"x"}]}`. -/
def thumbDocument : QJsonDocument :=
  QJsonDocument.object
    [("results".toList,
      QJsonValue.array
        [QJsonValue.object [("thumb".toList, QJsonValue.string "http://img".toList)],
          QJsonValue.object [("cover_image".toList, QJsonValue.string "x".toList)]])]

/-- Surroundings in which Qt's URL parser yields the empty URL for the empty string and
`imgUrl` otherwise. -/
def envParse : Env :=
  { isValid := fun _ => true, discogsToken := "secret".toList, reply := 9,
    parseUrl := fun t => if t.isEmpty then {} else imgUrl }

/-- The stream `https://LISTEN.DI.FM/public3`, its host in capitals. -/
def capitalDiFmUrl : QUrl :=
  { scheme := some "https".toList, host := some "LISTEN.DI.FM".toList,
    path := "/public3".toList }

/-- The stream `http://Prem2.DigitallyImported.COM:80/trance`, its host in mixed case. -/
def mixedCaseUrl : QUrl :=
  { scheme := some "http".toList, host := some "Prem2.DigitallyImported.COM".toList,
    port := some 80, path := "/trance".toList }

end RadioArtworkResolver

/-! ## Container lemmas -/

namespace QHash

variable {K V : Type}

@[simp] theorem empty_apply (k : K) : (empty : QHash K V) k = none := rfl

theorem contains_eq_false {m : QHash K V} {k : K} : m.contains k = false ↔ m k = none := by
  simp [contains]

theorem contains_eq_true {m : QHash K V} {k : K} :
    m.contains k = true ↔ ∃ v, m k = some v := by
  simp [contains, Option.isSome_iff_exists]

variable [DecidableEq K]

@[simp] theorem insert_self (m : QHash K V) (k : K) (v : V) : (m.insert k v) k = some v := by
  simp [insert]

theorem insert_of_ne (m : QHash K V) {k x : K} (v : V) (h : x ≠ k) :
    (m.insert k v) x = m x := by
  simp [insert, h]

@[simp] theorem remove_self (m : QHash K V) (k : K) : (m.remove k) k = none := by
  simp [remove]

theorem remove_of_ne (m : QHash K V) {k x : K} (h : x ≠ k) : (m.remove k) x = m x := by
  simp [remove, h]

theorem remove_insert_of_absent (m : QHash K V) (k : K) (v : V) (h : m k = none) :
    (m.insert k v).remove k = m := by
  funext x
  by_cases hx : x = k
  · subst hx; simp [h]
  · simp [remove, insert, hx]

end QHash

namespace QSet

variable {K : Type} [DecidableEq K]

theorem remove_insert_of_not_mem (s : QSet K) (k : K) (h : s k = false) :
    (s.insert k).remove k = s := by
  funext x
  by_cases hx : x = k
  · subst hx; simp [remove, h]
  · simp [remove, insert, hx]

end QSet

namespace RadioArtworkResolver

/-! ## The effect of `finishKey`, container by container -/

theorem finishKey_mInFlight (env : Env) (s : RadioArtworkResolver) (key : QString)
    (url : QUrl) : (finishKey env s key url).1.mInFlight = s.mInFlight.remove key := by
  unfold finishKey
  dsimp only
  split_ifs <;> rfl

theorem finishKey_mPending (env : Env) (s : RadioArtworkResolver) (key : QString)
    (url : QUrl) : (finishKey env s key url).1.mPending = s.mPending.remove key := by
  unfold finishKey
  dsimp only
  split_ifs <;> rfl

theorem finishKey_mReplyKey (env : Env) (s : RadioArtworkResolver) (key : QString)
    (url : QUrl) : (finishKey env s key url).1.mReplyKey = s.mReplyKey := by
  unfold finishKey
  dsimp only
  split_ifs <;> rfl

theorem finishKey_mCache (env : Env) (s : RadioArtworkResolver) (key : QString)
    (url : QUrl) : (finishKey env s key url).1.mCache =
      if url.isValid && !url.isEmpty then s.mCache.insert key url else s.mCache := by
  unfold finishKey
  dsimp only
  split_ifs <;> rfl

theorem finishKey_events (env : Env) (s : RadioArtworkResolver) (key : QString)
    (url : QUrl) : (finishKey env s key url).2 =
      if url.isEmpty then [] else notifyPending env.isValid url (s.mPending.value key) := by
  unfold finishKey
  dsimp only
  split_ifs <;> rfl

theorem notifyPending_eq (isValid : QPersistentModelIndex → Bool) (url : QUrl)
    (ws : List QPersistentModelIndex) :
    notifyPending isValid url ws
      = (ws.filter isValid).map (fun w => Event.artworkResolved w url) := by
  induction ws with
  | nil => rfl
  | cons w ws ih =>
    by_cases hw : isValid w = true
    · simp [notifyPending, hw, ih]
    · simp [notifyPending, hw, ih]

theorem isValid_not_isEmpty {u : QUrl} (h : u.isValid = true) : u.isEmpty = false := by
  unfold QUrl.isValid at h
  cases he : u.isEmpty <;> simp [he] at h ⊢

end RadioArtworkResolver

namespace RadioArtworkResolver

/-! ## Rejected requests, parsing and eligibility -/

/-- A request that is not accepted returns at once. -/
theorem requestArtwork_rejected [QUnicodeTables] (env : Env) (s : RadioArtworkResolver)
    (index : QPersistentModelIndex) (streamUrl : QUrl) (title artistOrStation : QString)
    (h : env.isValid index = false ∨ isDiFmStream streamUrl = false
      ∨ (parseArtistTitle title artistOrStation [] []).1 = false) :
    requestArtwork env s index streamUrl title artistOrStation = (s, []) := by
  unfold requestArtwork
  rcases h with h | h | h
  · simp [h]
  · simp [h]
  · by_cases hg : (!env.isValid index || !isDiFmStream streamUrl) = true
    · simp only [hg, if_true]
    · simp only [hg, h]
      simp

/-- C6: a `requestArtwork` call whose index is invalid, whose stream is not eligible or whose
text does not parse returns the state it was given (so `mCache`, `mPending`, `mInFlight` and
`mReplyKey` are unchanged) and produces no effect: no `artworkResolved`, no lookup. -/
theorem C6_rejected_request_is_silent [QUnicodeTables] (env : Env) (s : RadioArtworkResolver)
    (index : QPersistentModelIndex) (streamUrl : QUrl) (title artistOrStation : QString)
    (h : env.isValid index = false ∨ isDiFmStream streamUrl = false
      ∨ (parseArtistTitle title artistOrStation [] []).1 = false) :
    requestArtwork env s index streamUrl title artistOrStation = (s, []) :=
  requestArtwork_rejected env s index streamUrl title artistOrStation h

/-- C6, at a request from a stream that is not eligible, made while a lookup is in flight. -/
theorem C6_rejected_request_is_silent_witness :
    isDiFmStream exampleUrl = false ∧
      requestArtwork envToken
          (requestArtwork envToken {} 1 diFmUrl "A - B".toList []).1 3 exampleUrl
          "A - B".toList []
        = ((requestArtwork envToken {} 1 diFmUrl "A - B".toList []).1, []) :=
  ⟨by decide,
    C6_rejected_request_is_silent envToken _ 3 exampleUrl _ _ (Or.inr (Or.inl (by decide)))⟩

/-- C7: the four key derivation examples.  `parseArtistTitle`, called with empty output
strings, yields ("Daft Punk", "One More Time") for ("Daft Punk - One More Time", "StationX"),
("Daft Punk Radio", "One More Time") for ("One More Time", "Daft Punk Radio"), failure for
("", "") and ("A", "B - C") for ("A - B - C", ""). -/
theorem C7_key_derivation_examples :
    parseArtistTitle "Daft Punk - One More Time".toList "StationX".toList [] []
        = (true, "Daft Punk".toList, "One More Time".toList)
      ∧ parseArtistTitle "One More Time".toList "Daft Punk Radio".toList [] []
        = (true, "Daft Punk Radio".toList, "One More Time".toList)
      ∧ (parseArtistTitle [] [] [] []).1 = false
      ∧ parseArtistTitle "A - B - C".toList [] [] []
        = (true, "A".toList, "B - C".toList) := by
  refine ⟨?_, ?_, ?_, ?_⟩ <;> decide

/-! ## Resolution -/

/-- C4, as stated, fails: `finishKey` with the non-empty URL `brokenUrl`, which is not valid,
leaves the key out of the cache. -/
theorem C4_nonempty_invalid_result_is_not_cached :
    brokenUrl.isEmpty = false
      ∧ (finishKey envToken {} "k".toList brokenUrl).1.mCache "k".toList = none := by
  refine ⟨by decide, ?_⟩
  rw [finishKey_mCache]
  have h : (brokenUrl.isValid && !brokenUrl.isEmpty) = false := by decide
  simp [h]

/-- C4, amended: for every key and every result URL that is valid and non-empty, after
`finishKey` the cache maps the key to exactly that URL. -/
theorem C4_valid_result_is_cached (env : Env) (s : RadioArtworkResolver) (key : QString)
    (url : QUrl) (hv : url.isValid = true) (he : url.isEmpty = false) :
    (finishKey env s key url).1.mCache key = some url
      ∧ (finishKey env s key url).1.mCache.contains key = true
      ∧ (finishKey env s key url).1.mCache.value key = url := by
  rw [finishKey_mCache]
  simp [hv, he, QHash.contains, QHash.value]

/-- C4, amended, at the key "k" and the URL `http://img`. -/
theorem C4_valid_result_is_cached_witness :
    imgUrl.isValid = true ∧ imgUrl.isEmpty = false
      ∧ (finishKey envToken {} "k".toList imgUrl).1.mCache "k".toList = some imgUrl :=
  ⟨by decide, by decide,
    (C4_valid_result_is_cached envToken {} "k".toList imgUrl (by decide) (by decide)).1⟩

/-- C5: for a non-empty result URL, `finishKey` emits exactly one `artworkResolved(w, url)`
for each entry `w` of `mPending[key]` that is valid, in the order of `mPending[key]`, all
with the same `url`; invalid entries are skipped without stopping the loop; afterwards the
key is absent from `mPending`. -/
theorem C5_ordered_fan_out (env : Env) (s : RadioArtworkResolver) (key : QString)
    (url : QUrl) (he : url.isEmpty = false) :
    (finishKey env s key url).2
        = ((s.mPending.value key).filter env.isValid).map
            (fun w => Event.artworkResolved w url)
      ∧ (finishKey env s key url).1.mPending.contains key = false := by
  rw [finishKey_events, finishKey_mPending, notifyPending_eq]
  simp [he, QHash.contains]

/-- C5, at three waiters 1, 2, 3 of which 2 is no longer valid: 1 and 3 are notified, in
that order. -/
theorem C5_ordered_fan_out_witness :
    imgUrl.isEmpty = false
      ∧ (finishKey envToken { mPending := QHash.insert QHash.empty "k".toList [1, 2, 3] }
            "k".toList imgUrl).2
          = [Event.artworkResolved 1 imgUrl, Event.artworkResolved 3 imgUrl] :=
  ⟨by decide,
    (C5_ordered_fan_out envToken { mPending := QHash.insert QHash.empty "k".toList [1, 2, 3] }
      "k".toList imgUrl (by decide)).1.trans (by decide)⟩

end RadioArtworkResolver

namespace RadioArtworkResolver

/-! ## The paths through `requestArtwork` and `replyFinished` -/

theorem accepted_iff [QUnicodeTables] {env : Env} {index : QPersistentModelIndex} {streamUrl : QUrl}
    {title artistOrStation : QString} :
    accepted env index streamUrl title artistOrStation = true ↔
      env.isValid index = true ∧ isDiFmStream streamUrl = true
        ∧ (parseArtistTitle title artistOrStation [] []).1 = true := by
  simp [accepted, and_assoc]

/-- An accepted request for a cached key answers from the cache and changes nothing. -/
theorem requestArtwork_cached [QUnicodeTables] {env : Env} {s : RadioArtworkResolver}
    {index : QPersistentModelIndex} {streamUrl : QUrl} {title artistOrStation : QString}
    (hacc : accepted env index streamUrl title artistOrStation = true) {u : QUrl}
    (hc : s.mCache (requestKey title artistOrStation) = some u) :
    requestArtwork env s index streamUrl title artistOrStation
      = (s, if u.isValid && !u.isEmpty then [Event.artworkResolved index u] else []) := by
  obtain ⟨h1, h2, h3⟩ := accepted_iff.mp hacc
  have hc2 : s.mCache (canonicalKey (parseArtistTitle title artistOrStation [] []).2.1
      (parseArtistTitle title artistOrStation [] []).2.2) = some u := hc
  unfold requestArtwork
  simp only [h1, h2, h3, QHash.contains, QHash.value, hc2]
  by_cases hu : (u.isValid && !u.isEmpty) = true
  · simp [hu]
  · simp [hu]

/-- An accepted request for a key that is not cached and is in flight joins the waiters. -/
theorem requestArtwork_join [QUnicodeTables] {env : Env} {s : RadioArtworkResolver}
    {index : QPersistentModelIndex} {streamUrl : QUrl} {title artistOrStation : QString}
    (hacc : accepted env index streamUrl title artistOrStation = true)
    (hc : s.mCache (requestKey title artistOrStation) = none)
    (hf : s.mInFlight (requestKey title artistOrStation) = true) :
    requestArtwork env s index streamUrl title artistOrStation
      = ({ s with
            mPending := s.mPending.insert (requestKey title artistOrStation)
              (s.mPending.value (requestKey title artistOrStation) ++ [index]) }, []) := by
  obtain ⟨h1, h2, h3⟩ := accepted_iff.mp hacc
  have hc2 : s.mCache (canonicalKey (parseArtistTitle title artistOrStation [] []).2.1
      (parseArtistTitle title artistOrStation [] []).2.2) = none := hc
  have hf2 : s.mInFlight (canonicalKey (parseArtistTitle title artistOrStation [] []).2.1
      (parseArtistTitle title artistOrStation [] []).2.2) = true := hf
  unfold requestArtwork
  simp only [h1, h2, h3, QHash.contains, QSet.contains, hc2, hf2]
  simp [requestKey, requestArtist, requestTitle]

/-- An accepted request for a key that is neither cached nor in flight records the waiter,
marks the key as in flight and starts a lookup. -/
theorem requestArtwork_start [QUnicodeTables] {env : Env} {s : RadioArtworkResolver}
    {index : QPersistentModelIndex} {streamUrl : QUrl} {title artistOrStation : QString}
    (hacc : accepted env index streamUrl title artistOrStation = true)
    (hc : s.mCache (requestKey title artistOrStation) = none)
    (hf : s.mInFlight (requestKey title artistOrStation) = false) :
    requestArtwork env s index streamUrl title artistOrStation
      = startDiscogsLookup env
          { s with
            mPending := s.mPending.insert (requestKey title artistOrStation)
              (s.mPending.value (requestKey title artistOrStation) ++ [index]),
            mInFlight := s.mInFlight.insert (requestKey title artistOrStation) }
          (requestKey title artistOrStation) (requestArtist title artistOrStation)
          (requestTitle title artistOrStation) := by
  obtain ⟨h1, h2, h3⟩ := accepted_iff.mp hacc
  have hc2 : s.mCache (canonicalKey (parseArtistTitle title artistOrStation [] []).2.1
      (parseArtistTitle title artistOrStation [] []).2.2) = none := hc
  have hf2 : s.mInFlight (canonicalKey (parseArtistTitle title artistOrStation [] []).2.1
      (parseArtistTitle title artistOrStation [] []).2.2) = false := hf
  unfold requestArtwork
  simp only [h1, h2, h3, QHash.contains, QSet.contains, hc2, hf2]
  simp [requestKey, requestArtist, requestTitle]

/-- With a token configured the lookup sends one request and records its reply. -/
theorem startDiscogsLookup_token {env : Env} (s : RadioArtworkResolver)
    (key artist title : QString) (ht : QString.trimmed env.discogsToken ≠ []) :
    startDiscogsLookup env s key artist title
      = ({ s with mReplyKey := s.mReplyKey.insert env.reply key },
          [Event.get env.reply
            (lookupRequest artist title (QString.trimmed env.discogsToken))]) := by
  unfold startDiscogsLookup
  simp [ht]

/-- Without a token the lookup resolves at once with the empty URL. -/
theorem startDiscogsLookup_noToken {env : Env} (s : RadioArtworkResolver)
    (key artist title : QString) (ht : QString.trimmed env.discogsToken = []) :
    startDiscogsLookup env s key artist title = finishKey env s key {} := by
  unfold startDiscogsLookup
  simp [ht]

/-- The result of `finishKey` for an empty URL. -/
theorem finishKey_empty (env : Env) (s : RadioArtworkResolver) (key : QString) (url : QUrl)
    (he : url.isEmpty = true) :
    finishKey env s key url
      = ({ s with mPending := s.mPending.remove key, mInFlight := s.mInFlight.remove key },
          []) := by
  unfold finishKey
  simp [he, QUrl.isValid]

/-- Every path of the reply handler ends in one `finishKey` call for the reply's key, made
after the reply's entry is removed. -/
theorem replyFinished_eq (env : Env) (s : RadioArtworkResolver) (reply : QNetworkReply)
    (networkError : Bool) (document : QJsonDocument) :
    ∃ url, replyFinished env s reply networkError document
      = finishKey env { s with mReplyKey := s.mReplyKey.remove reply }
          (s.mReplyKey.value reply) url := by
  unfold replyFinished
  dsimp only
  split_ifs <;> exact ⟨_, rfl⟩

end RadioArtworkResolver

namespace RadioArtworkResolver

/-! ## The bookkeeping invariant -/

theorem inv_init : Inv ({} : RadioArtworkResolver) where
  pending_iff := by intro k; simp [QHash.empty, QSet.empty]
  pending_ne := by intro k; simp [QHash.empty]
  cache_inflight := by intro k; simp [QHash.empty]
  cache_valid := by intro k u; simp [QHash.empty]
  reply_inj := by intro r1 r2 k; simp [QHash.empty]
  inflight_iff := by intro k; simp [QHash.empty, QSet.empty]

/-- Joining the waiters of a key in flight keeps the invariant. -/
theorem inv_join {s : RadioArtworkResolver} (hi : Inv s) (key : QString)
    (index : QPersistentModelIndex) (hf : s.mInFlight key = true) :
    Inv { s with mPending := s.mPending.insert key (s.mPending.value key ++ [index]) } where
  pending_iff := by
    intro k
    by_cases hk : k = key
    · subst hk; simp [hf]
    · simpa [QHash.insert_of_ne _ _ hk] using hi.pending_iff k
  pending_ne := by
    intro k
    by_cases hk : k = key
    · subst hk; simp
    · simpa [QHash.insert_of_ne _ _ hk] using hi.pending_ne k
  cache_inflight := hi.cache_inflight
  cache_valid := hi.cache_valid
  reply_inj := hi.reply_inj
  inflight_iff := hi.inflight_iff

/-- Starting a lookup whose reply object is not outstanding keeps the invariant. -/
theorem inv_start {s : RadioArtworkResolver} (hi : Inv s) (key : QString)
    (index : QPersistentModelIndex) (reply : QNetworkReply)
    (hc : s.mCache key = none) (hf : s.mInFlight key = false)
    (hr : s.mReplyKey reply = none) :
    Inv { s with
          mPending := s.mPending.insert key (s.mPending.value key ++ [index]),
          mInFlight := s.mInFlight.insert key,
          mReplyKey := s.mReplyKey.insert reply key } where
  pending_iff := by
    intro k
    by_cases hk : k = key
    · subst hk; simp [QSet.insert]
    · simpa [QHash.insert_of_ne _ _ hk, QSet.insert, hk] using hi.pending_iff k
  pending_ne := by
    intro k
    by_cases hk : k = key
    · subst hk; simp
    · simpa [QHash.insert_of_ne _ _ hk] using hi.pending_ne k
  cache_inflight := by
    intro k hk'
    by_cases hk : k = key
    · subst hk; simp [hc] at hk'
    · simpa [QSet.insert, hk] using hi.cache_inflight k hk'
  cache_valid := hi.cache_valid
  reply_inj := by
    intro r1 r2 k h1 h2
    dsimp only at h1 h2
    have hnone : ∀ r, s.mReplyKey r ≠ some key := by
      intro r hr'
      have := (hi.inflight_iff key).mpr ⟨r, hr'⟩
      simp [hf] at this
    by_cases e1 : r1 = reply <;> by_cases e2 : r2 = reply
    · rw [e1, e2]
    · subst e1
      simp only [QHash.insert_self, Option.some.injEq] at h1
      subst h1
      rw [QHash.insert_of_ne _ _ e2] at h2
      exact absurd h2 (hnone r2)
    · subst e2
      simp only [QHash.insert_self, Option.some.injEq] at h2
      subst h2
      rw [QHash.insert_of_ne _ _ e1] at h1
      exact absurd h1 (hnone r1)
    · rw [QHash.insert_of_ne _ _ e1] at h1
      rw [QHash.insert_of_ne _ _ e2] at h2
      exact hi.reply_inj r1 r2 k h1 h2
  inflight_iff := by
    intro k
    by_cases hk : k = key
    · subst hk
      simp only [QSet.insert, if_true, true_iff]
      exact ⟨reply, QHash.insert_self _ _ _⟩
    · simp only [QSet.insert, hk, if_false]
      rw [hi.inflight_iff k]
      constructor
      · rintro ⟨r, h⟩
        have hne : r ≠ reply := by
          rintro rfl
          rw [hr] at h
          exact Option.noConfusion h
        exact ⟨r, by rw [QHash.insert_of_ne _ _ hne]; exact h⟩
      · rintro ⟨r, h⟩
        by_cases hne : r = reply
        · subst hne
          simp only [QHash.insert_self, Option.some.injEq] at h
          exact absurd h.symm hk
        · exact ⟨r, by rw [QHash.insert_of_ne _ _ hne] at h; exact h⟩

/-- Finishing the lookup of an outstanding reply keeps the invariant, whatever the URL. -/
theorem inv_finish {s : RadioArtworkResolver} (hi : Inv s) (env : Env) (key : QString)
    (reply : QNetworkReply) (url : QUrl) (hr : s.mReplyKey reply = some key) :
    Inv (finishKey env { s with mReplyKey := s.mReplyKey.remove reply } key url).1 where
  pending_iff := by
    intro k
    rw [finishKey_mPending, finishKey_mInFlight]
    by_cases hk : k = key
    · subst hk; simp [QSet.remove]
    · simpa [QHash.remove_of_ne _ hk, QSet.remove, hk] using hi.pending_iff k
  pending_ne := by
    intro k
    rw [finishKey_mPending]
    by_cases hk : k = key
    · subst hk; simp
    · simpa [QHash.remove_of_ne _ hk] using hi.pending_ne k
  cache_inflight := by
    intro k hk'
    rw [finishKey_mInFlight]
    rw [finishKey_mCache] at hk'
    by_cases hk : k = key
    · subst hk; simp [QSet.remove]
    · simp only [QSet.remove, hk, if_false]
      apply hi.cache_inflight k
      split_ifs at hk'
      · rw [QHash.insert_of_ne _ _ hk] at hk'
        exact hk'
      · exact hk'
  cache_valid := by
    intro k u hu
    rw [finishKey_mCache] at hu
    split_ifs at hu with hv
    · by_cases hk : k = key
      · subst hk
        simp only [QHash.insert_self, Option.some.injEq] at hu
        subst hu
        simp only [Bool.and_eq_true, Bool.not_eq_true', Bool.not_eq_eq_eq_not,
          Bool.not_true] at hv
        exact ⟨hv.1, hv.2⟩
      · rw [QHash.insert_of_ne _ _ hk] at hu
        exact hi.cache_valid k u hu
    · exact hi.cache_valid k u hu
  reply_inj := by
    intro r1 r2 k h1 h2
    rw [finishKey_mReplyKey] at h1 h2
    have g : ∀ r, (s.mReplyKey.remove reply) r = some k → s.mReplyKey r = some k := by
      intro r h
      by_cases e : r = reply
      · subst e; simp at h
      · rw [QHash.remove_of_ne _ e] at h; exact h
    exact hi.reply_inj r1 r2 k (g r1 h1) (g r2 h2)
  inflight_iff := by
    intro k
    rw [finishKey_mInFlight, finishKey_mReplyKey]
    by_cases hk : k = key
    · subst hk
      simp only [QSet.remove, if_true, false_iff, Bool.false_eq_true, not_exists]
      intro r h
      by_cases e : r = reply
      · subst e; simp at h
      · rw [QHash.remove_of_ne _ e] at h
        exact e (hi.reply_inj r reply k h hr)
    · simp only [QSet.remove, hk, if_false]
      rw [hi.inflight_iff k]
      constructor
      · rintro ⟨r, h⟩
        have hne : r ≠ reply := by
          rintro rfl
          rw [hr] at h
          exact hk (Option.some.inj h).symm
        exact ⟨r, by rw [QHash.remove_of_ne _ hne]; exact h⟩
      · rintro ⟨r, h⟩
        by_cases e : r = reply
        · subst e; simp at h
        · exact ⟨r, by rw [QHash.remove_of_ne _ e] at h; exact h⟩

end RadioArtworkResolver

namespace RadioArtworkResolver

/-- A string of whitespace characters trims to the empty string. -/
theorem trimmed_eq_nil_of_all_isSpace {t : QString} (h : t.all QChar.isSpace = true) :
    QString.trimmed t = [] := by
  have hd : t.dropWhile QChar.isSpace = [] := by
    rw [List.dropWhile_eq_nil_iff]
    simpa using h
  simp [QString.trimmed, hd]

/-- Without a token, an accepted request for a key that is not cached, not in flight and
without waiters leaves no trace. -/
theorem requestArtwork_noToken [QUnicodeTables] {env : Env} {s : RadioArtworkResolver}
    {index : QPersistentModelIndex} {streamUrl : QUrl} {title artistOrStation : QString}
    (hacc : accepted env index streamUrl title artistOrStation = true)
    (ht : QString.trimmed env.discogsToken = [])
    (hc : s.mCache (requestKey title artistOrStation) = none)
    (hf : s.mInFlight (requestKey title artistOrStation) = false)
    (hp : s.mPending (requestKey title artistOrStation) = none) :
    requestArtwork env s index streamUrl title artistOrStation = (s, []) := by
  rw [requestArtwork_start hacc hc hf, startDiscogsLookup_noToken _ _ _ _ ht,
    finishKey_empty _ _ _ _ (by decide)]
  dsimp only
  rw [QHash.remove_insert_of_absent _ _ _ hp, QSet.remove_insert_of_not_mem _ _ hf]

/-- With a token, an accepted request for a key that is neither cached nor in flight records
the waiter, marks the key as in flight and sends one request. -/
theorem requestArtwork_token [QUnicodeTables] {env : Env} {s : RadioArtworkResolver}
    {index : QPersistentModelIndex} {streamUrl : QUrl} {title artistOrStation : QString}
    (hacc : accepted env index streamUrl title artistOrStation = true)
    (ht : QString.trimmed env.discogsToken ≠ [])
    (hc : s.mCache (requestKey title artistOrStation) = none)
    (hf : s.mInFlight (requestKey title artistOrStation) = false) :
    requestArtwork env s index streamUrl title artistOrStation
      = ({ s with
            mPending := s.mPending.insert (requestKey title artistOrStation)
              (s.mPending.value (requestKey title artistOrStation) ++ [index]),
            mInFlight := s.mInFlight.insert (requestKey title artistOrStation),
            mReplyKey := s.mReplyKey.insert env.reply (requestKey title artistOrStation) },
          [Event.get env.reply
            (lookupRequest (requestArtist title artistOrStation)
              (requestTitle title artistOrStation) (QString.trimmed env.discogsToken))]) := by
  rw [requestArtwork_start hacc hc hf, startDiscogsLookup_token _ _ _ _ ht]

/-- The invariant survives a `requestArtwork` call in which the network manager hands out a
reply object that is not outstanding. -/
theorem inv_requestArtwork [QUnicodeTables] {s : RadioArtworkResolver} (hi : Inv s) (env : Env)
    (index : QPersistentModelIndex) (streamUrl : QUrl) (title artistOrStation : QString)
    (hr : s.mReplyKey env.reply = none) :
    Inv (requestArtwork env s index streamUrl title artistOrStation).1 := by
  by_cases hacc : accepted env index streamUrl title artistOrStation = true
  · cases hc : s.mCache (requestKey title artistOrStation) with
    | some u => rw [requestArtwork_cached hacc hc]; exact hi
    | none =>
      cases hf : s.mInFlight (requestKey title artistOrStation) with
      | true => rw [requestArtwork_join hacc hc hf]; exact inv_join hi _ _ hf
      | false =>
        by_cases ht : QString.trimmed env.discogsToken = []
        · have hp : s.mPending (requestKey title artistOrStation) = none := by
            cases hp' : s.mPending (requestKey title artistOrStation) with
            | none => rfl
            | some ws =>
              have := (hi.pending_iff (requestKey title artistOrStation)).mp (by simp [hp'])
              rw [hf] at this
              exact Bool.noConfusion this
          rw [requestArtwork_noToken hacc ht hc hf hp]; exact hi
        · rw [requestArtwork_token hacc ht hc hf]
          exact inv_start hi _ _ _ hc hf hr
  · have h : env.isValid index = false ∨ isDiFmStream streamUrl = false
        ∨ (parseArtistTitle title artistOrStation [] []).1 = false := by
      rw [accepted_iff] at hacc
      by_cases h1 : env.isValid index = true
      · by_cases h2 : isDiFmStream streamUrl = true
        · right; right
          simpa using fun h3 => hacc ⟨h1, h2, h3⟩
        · right; left; simpa using h2
      · left; simpa using h1
    rw [requestArtwork_rejected env s index streamUrl title artistOrStation h]
    exact hi

/-- The invariant survives the handler of an outstanding reply. -/
theorem inv_replyFinished {s : RadioArtworkResolver} (hi : Inv s) (env : Env)
    (reply : QNetworkReply) (networkError : Bool) (document : QJsonDocument)
    (hr : s.mReplyKey.contains reply = true) :
    Inv (replyFinished env s reply networkError document).1 := by
  obtain ⟨key, hkey⟩ := QHash.contains_eq_true.mp hr
  obtain ⟨url, hurl⟩ := replyFinished_eq env s reply networkError document
  have hv : s.mReplyKey.value reply = key := by simp [QHash.value, hkey]
  rw [hurl, hv]
  exact inv_finish hi env key reply url hkey

/-- Every reachable state satisfies the invariant. -/
theorem reachable_inv [QUnicodeTables] {s : RadioArtworkResolver} (h : Reachable s) : Inv s := by
  induction h with
  | init => exact inv_init
  | request env index streamUrl title artistOrStation _ hr ih =>
    exact inv_requestArtwork ih env index streamUrl title artistOrStation
      (QHash.contains_eq_false.mp hr)
  | finished env reply networkError document _ hr ih =>
    exact inv_replyFinished ih env reply networkError document hr

end RadioArtworkResolver

namespace RadioArtworkResolver

theorem stateInFlight_reachable : Reachable stateInFlight :=
  Reachable.request envToken 1 diFmUrl "A - B".toList [] Reachable.init (by decide)

theorem stateCached_reachable : Reachable stateCached :=
  Reachable.finished envImg 7 false imgDocument stateInFlight_reachable (by decide)

theorem Call.acceptedFor_iff [QUnicodeTables] {c : Call} {key : QString} :
    c.acceptedFor key = true ↔
      accepted c.env c.index c.streamUrl c.title c.artistOrStation = true
        ∧ requestKey c.title c.artistOrStation = key := by
  simp [Call.acceptedFor]

/-- While a key is in flight and not cached, accepted requests for it only append their
waiters. -/
theorem runCalls_join [QUnicodeTables] (key : QString) (cs : List Call) :
    ∀ (s : RadioArtworkResolver) (ws : List QPersistentModelIndex),
      s.mCache key = none → s.mInFlight key = true → s.mPending key = some ws →
      (∀ x ∈ cs, Call.acceptedFor x key = true) →
      (runCalls s cs).2 = []
        ∧ (runCalls s cs).1.mPending key = some (ws ++ cs.map Call.index)
        ∧ (runCalls s cs).1.mInFlight key = true
        ∧ (runCalls s cs).1.mCache key = none := by
  induction cs with
  | nil => intro s ws hc hf hp _; simp [runCalls, hc, hf, hp]
  | cons c cs ih =>
    intro s ws hc hf hp hall
    obtain ⟨hacc, hkey⟩ := Call.acceptedFor_iff.mp (hall c (List.mem_cons_self _ _))
    have hrun : c.run s
        = ({ s with mPending := s.mPending.insert key (s.mPending.value key ++ [c.index]) },
            []) := by
      subst hkey
      exact requestArtwork_join hacc hc hf
    have hrest := ih { s with
        mPending := s.mPending.insert key (s.mPending.value key ++ [c.index]) }
      (ws ++ [c.index]) hc hf (by simp [QHash.value, hp])
      (fun x hx => hall x (List.mem_cons_of_mem _ hx))
    simp only [runCalls, hrun, List.nil_append]
    simpa using hrest

/-! ## Coalescing, cache hits and negative results -/

/-- C1: from a reachable state in which the key is neither cached nor in flight, with a token
configured, a run of N ≥ 1 accepted `requestArtwork` calls deriving that key, with no reply
finishing in between, sends exactly one request, sent by the first call; the N-1 later calls
produce no effect; afterwards `mPending[key]` is the N waiters in request order and the key
is in `mInFlight`. -/
theorem C1_coalescing [QUnicodeTables] (s : RadioArtworkResolver) (hs : Reachable s) (key : QString)
    (c : Call) (cs : List Call)
    (hc : s.mCache.contains key = false) (hf : s.mInFlight.contains key = false)
    (ht : QString.trimmed c.env.discogsToken ≠ [])
    (hall : ∀ x ∈ c :: cs, Call.acceptedFor x key = true) :
    (c.run s).2
        = [Event.get c.env.reply
            (lookupRequest (requestArtist c.title c.artistOrStation)
              (requestTitle c.title c.artistOrStation) (QString.trimmed c.env.discogsToken))]
      ∧ (runCalls (c.run s).1 cs).2 = []
      ∧ (runCalls s (c :: cs)).2 = (c.run s).2
      ∧ (runCalls s (c :: cs)).1.mPending key = some ((c :: cs).map Call.index)
      ∧ (runCalls s (c :: cs)).1.mInFlight.contains key = true := by
  obtain ⟨hacc, hkey⟩ := Call.acceptedFor_iff.mp (hall c (List.mem_cons_self _ _))
  have hc' : s.mCache key = none := QHash.contains_eq_false.mp hc
  have hf' : s.mInFlight key = false := hf
  have hp : s.mPending key = none := by
    cases hp' : s.mPending key with
    | none => rfl
    | some ws =>
      have := ((reachable_inv hs).pending_iff key).mp (by simp [hp'])
      rw [hf'] at this
      exact Bool.noConfusion this
  have hrun : c.run s
      = ({ s with
            mPending := s.mPending.insert key (s.mPending.value key ++ [c.index]),
            mInFlight := s.mInFlight.insert key,
            mReplyKey := s.mReplyKey.insert c.env.reply key },
          [Event.get c.env.reply
            (lookupRequest (requestArtist c.title c.artistOrStation)
              (requestTitle c.title c.artistOrStation)
              (QString.trimmed c.env.discogsToken))]) := by
    subst hkey
    exact requestArtwork_token hacc ht hc' hf'
  have hrest := runCalls_join key cs (c.run s).1 [c.index]
    (by rw [hrun]; exact hc') (by rw [hrun]; simp [QSet.insert])
    (by rw [hrun]; simp [QHash.value, hp]; rfl)
    (fun x hx => hall x (List.mem_cons_of_mem _ hx))
  refine ⟨by rw [hrun], hrest.1, ?_, ?_, ?_⟩
  · simp [runCalls, hrest.1]
  · simpa [runCalls] using hrest.2.1
  · simpa [runCalls, QSet.contains] using hrest.2.2.1

/-- C1, at the empty resolver and the two requests `callOne` and `callThree` for the key
"a - b": one request is sent and the pending waiters are 1 and 3. -/
theorem C1_coalescing_witness :
    (runCalls {} [callOne, callThree]).2
        = [Event.get 7 (lookupRequest "A".toList "B".toList "secret".toList)]
      ∧ (runCalls {} [callOne, callThree]).1.mPending "a - b".toList = some [1, 3] := by
  have h := C1_coalescing {} Reachable.init "a - b".toList callOne [callThree]
    (by decide) (by decide) (by decide) (by decide)
  exact ⟨h.2.2.1.trans (h.1.trans (by decide)), h.2.2.2.1⟩

/-- C2: in every reachable state in which the key of an accepted `requestArtwork` call is in
`mCache`, the call emits exactly one `artworkResolved(index, mCache[key])`, starts no lookup
and returns the state unchanged (the waiter is not added to `mPending`). -/
theorem C2_cache_hit_short_circuits [QUnicodeTables]
    (s : RadioArtworkResolver) (hs : Reachable s) (env : Env)
    (index : QPersistentModelIndex) (streamUrl : QUrl) (title artistOrStation : QString)
    (hacc : accepted env index streamUrl title artistOrStation = true)
    (hc : s.mCache.contains (requestKey title artistOrStation) = true) :
    requestArtwork env s index streamUrl title artistOrStation
      = (s, [Event.artworkResolved index
              (s.mCache.value (requestKey title artistOrStation))]) := by
  obtain ⟨u, hu⟩ := QHash.contains_eq_true.mp hc
  obtain ⟨hv, he⟩ := (reachable_inv hs).cache_valid _ u hu
  rw [requestArtwork_cached hacc hu]
  simp [hv, he, QHash.value, hu]

/-- C2, at the state in which "a - b" is cached as `http://img`: waiter 5 asking for
"a - B" is answered at once. -/
theorem C2_cache_hit_short_circuits_witness :
    Reachable stateCached
      ∧ requestArtwork envNoToken stateCached 5 diFmUrl "a - B".toList []
        = (stateCached, [Event.artworkResolved 5 imgUrl]) :=
  ⟨stateCached_reachable,
    (C2_cache_hit_short_circuits stateCached stateCached_reachable envNoToken 5 diFmUrl
      "a - B".toList [] (by decide) (by decide)).trans (by
        have h : stateCached.mCache.value (requestKey "a - B".toList []) = imgUrl := by
          decide
        rw [h])⟩

/-- C3: for a key that is not cached, `finishKey` with an empty URL removes the key from
`mInFlight` and from `mPending`, leaves `mCache` unchanged and emits nothing; the next
accepted `requestArtwork` call deriving the key then does not return from the cache: it
records its waiter, inserts the key into `mInFlight` and starts a lookup, which with a token
configured sends one request and leaves the key in flight. -/
theorem C3_negative_results_not_cached [QUnicodeTables]
    (env : Env) (s : RadioArtworkResolver) (key : QString)
    (url : QUrl) (he : url.isEmpty = true) (hc : s.mCache.contains key = false)
    (env2 : Env) (index : QPersistentModelIndex) (streamUrl : QUrl)
    (title artistOrStation : QString)
    (hacc : accepted env2 index streamUrl title artistOrStation = true)
    (hkey : requestKey title artistOrStation = key) :
    (finishKey env s key url).1.mInFlight.contains key = false
      ∧ (finishKey env s key url).1.mPending.contains key = false
      ∧ (finishKey env s key url).1.mCache = s.mCache
      ∧ (finishKey env s key url).2 = []
      ∧ requestArtwork env2 (finishKey env s key url).1 index streamUrl title artistOrStation
        = startDiscogsLookup env2
            { (finishKey env s key url).1 with
              mPending := (finishKey env s key url).1.mPending.insert key [index],
              mInFlight := (finishKey env s key url).1.mInFlight.insert key }
            key (requestArtist title artistOrStation) (requestTitle title artistOrStation)
      ∧ (QString.trimmed env2.discogsToken ≠ [] →
          (requestArtwork env2 (finishKey env s key url).1 index streamUrl title
              artistOrStation).2
            = [Event.get env2.reply
                (lookupRequest (requestArtist title artistOrStation)
                  (requestTitle title artistOrStation) (QString.trimmed env2.discogsToken))]
          ∧ (requestArtwork env2 (finishKey env s key url).1 index streamUrl title
              artistOrStation).1.mInFlight.contains key = true) := by
  have hc' : s.mCache key = none := QHash.contains_eq_false.mp hc
  have hfin := finishKey_empty env s key url he
  subst hkey
  have hstart : requestArtwork env2 (finishKey env s (requestKey title artistOrStation) url).1
      index streamUrl title artistOrStation = _ :=
    requestArtwork_start hacc (by rw [hfin]; exact hc') (by rw [hfin]; simp [QSet.remove])
  have hval : (finishKey env s (requestKey title artistOrStation) url).1.mPending.value
      (requestKey title artistOrStation) ++ [index] = [index] := by
    rw [hfin]; simp [QHash.value]; rfl
  refine ⟨by rw [hfin]; simp [QSet.contains, QSet.remove],
    by rw [hfin]; simp [QHash.contains], by rw [hfin], by rw [hfin], ?_, ?_⟩
  · rw [hstart, hval]
  · intro ht
    rw [hstart, startDiscogsLookup_token _ _ _ _ ht]
    simp [QSet.contains, QSet.insert]

/-- C3, at the state in which "a - b" is in flight: after the lookup resolves empty, waiter 4
asking again makes the resolver send a new request. -/
theorem C3_negative_results_not_cached_witness :
    (finishKey envToken stateInFlight "a - b".toList {}).1.mCache.contains "a - b".toList
        = false
      ∧ (requestArtwork envImg (finishKey envToken stateInFlight "a - b".toList {}).1 4
            diFmUrl "A - B".toList []).2
          = [Event.get 8 (lookupRequest "A".toList "B".toList "secret".toList)] := by
  have h := C3_negative_results_not_cached envToken stateInFlight "a - b".toList {}
    (by decide) (by decide) envImg 4 diFmUrl "A - B".toList [] (by decide) (by decide)
  exact ⟨by rw [h.2.2.1]; decide, (h.2.2.2.2.2 (by decide)).1.trans (by decide)⟩

/-- C9: when every character of the token is whitespace (the token is empty or
whitespace-only), an accepted `requestArtwork` call whose
key is not cached, not in flight and not pending returns the state it was given and produces
no effect: no network request, no entry in `mReplyKey`, no notification, and the key is still
absent from `mCache`, `mPending` and `mInFlight`. -/
theorem C9_no_token_resolves_empty [QUnicodeTables] (env : Env) (s : RadioArtworkResolver)
    (index : QPersistentModelIndex) (streamUrl : QUrl) (title artistOrStation : QString)
    (ht : env.discogsToken.all QChar.isSpace = true)
    (hacc : accepted env index streamUrl title artistOrStation = true)
    (hc : s.mCache.contains (requestKey title artistOrStation) = false)
    (hf : s.mInFlight.contains (requestKey title artistOrStation) = false)
    (hp : s.mPending.contains (requestKey title artistOrStation) = false) :
    requestArtwork env s index streamUrl title artistOrStation = (s, [])
      ∧ (requestArtwork env s index streamUrl title artistOrStation).1.mCache.contains
          (requestKey title artistOrStation) = false
      ∧ (requestArtwork env s index streamUrl title artistOrStation).1.mPending.contains
          (requestKey title artistOrStation) = false
      ∧ (requestArtwork env s index streamUrl title artistOrStation).1.mInFlight.contains
          (requestKey title artistOrStation) = false := by
  have h := requestArtwork_noToken hacc (trimmed_eq_nil_of_all_isSpace ht)
    (QHash.contains_eq_false.mp hc) hf (QHash.contains_eq_false.mp hp)
  rw [h]
  exact ⟨rfl, hc, hp, hf⟩

/-- C9, at a whitespace-only token, in the state in which "a - b" is cached: waiter 1 asking
for "C - D" changes nothing. -/
theorem C9_no_token_resolves_empty_witness :
    envBlankToken.discogsToken.all QChar.isSpace = true
      ∧ requestArtwork envBlankToken stateCached 1 diFmUrl "C - D".toList []
        = (stateCached, []) :=
  ⟨by decide,
    (C9_no_token_resolves_empty envBlankToken stateCached 1 diFmUrl "C - D".toList []
      (by decide) (by decide) (by decide) (by decide) (by decide)).1⟩

/-- C10: in every reachable state the values of `mReplyKey` are pairwise distinct (a key has
at most one outstanding lookup), and a key is in `mInFlight` exactly when it is the value of
some entry of `mReplyKey` (a lookup for it was sent and its handler has not run). -/
theorem C10_in_flight_invariant [QUnicodeTables] (s : RadioArtworkResolver) (hs : Reachable s) :
    (∀ r1 r2 k, s.mReplyKey r1 = some k → s.mReplyKey r2 = some k → r1 = r2)
      ∧ (∀ k, s.mInFlight.contains k = true ↔ ∃ r, s.mReplyKey r = some k) :=
  ⟨(reachable_inv hs).reply_inj, (reachable_inv hs).inflight_iff⟩

/-- C10, at the state in which "a - b" is in flight with reply number 7. -/
theorem C10_in_flight_invariant_witness :
    Reachable stateInFlight
      ∧ stateInFlight.mReplyKey 7 = some "a - b".toList
      ∧ (stateInFlight.mInFlight.contains "a - b".toList = true
          ↔ ∃ r, stateInFlight.mReplyKey r = some "a - b".toList) :=
  ⟨stateInFlight_reachable, by decide,
    (C10_in_flight_invariant stateInFlight stateInFlight_reachable).2 "a - b".toList⟩

end RadioArtworkResolver

namespace RadioArtworkResolver

/-! ## Frame properties and the life of a cache entry -/

/-- The four shapes the state can have after a `requestArtwork` call. -/
theorem requestArtwork_shape [QUnicodeTables] (env : Env) (s : RadioArtworkResolver)
    (index : QPersistentModelIndex) (streamUrl : QUrl) (title artistOrStation : QString) :
    (requestArtwork env s index streamUrl title artistOrStation).1 = s
      ∨ (requestArtwork env s index streamUrl title artistOrStation).1
          = { s with
              mPending := s.mPending.insert (requestKey title artistOrStation)
                (s.mPending.value (requestKey title artistOrStation) ++ [index]) }
      ∨ (requestArtwork env s index streamUrl title artistOrStation).1
          = { s with
              mPending := s.mPending.insert (requestKey title artistOrStation)
                (s.mPending.value (requestKey title artistOrStation) ++ [index]),
              mInFlight := s.mInFlight.insert (requestKey title artistOrStation),
              mReplyKey := s.mReplyKey.insert env.reply (requestKey title artistOrStation) }
      ∨ (requestArtwork env s index streamUrl title artistOrStation).1
          = { s with
              mPending := (s.mPending.insert (requestKey title artistOrStation)
                (s.mPending.value (requestKey title artistOrStation) ++ [index])).remove
                  (requestKey title artistOrStation),
              mInFlight := (s.mInFlight.insert (requestKey title artistOrStation)).remove
                (requestKey title artistOrStation) } := by
  by_cases hacc : accepted env index streamUrl title artistOrStation = true
  · cases hc : s.mCache (requestKey title artistOrStation) with
    | some u => left; rw [requestArtwork_cached hacc hc]
    | none =>
      cases hf : s.mInFlight (requestKey title artistOrStation) with
      | true => right; left; rw [requestArtwork_join hacc hc hf]
      | false =>
        by_cases ht : QString.trimmed env.discogsToken = []
        · right; right; right
          rw [requestArtwork_start hacc hc hf, startDiscogsLookup_noToken _ _ _ _ ht,
            finishKey_empty _ _ _ _ (by decide)]
        · right; right; left
          rw [requestArtwork_token hacc ht hc hf]
  · left
    have h : env.isValid index = false ∨ isDiFmStream streamUrl = false
        ∨ (parseArtistTitle title artistOrStation [] []).1 = false := by
      rw [accepted_iff] at hacc
      by_cases h1 : env.isValid index = true
      · by_cases h2 : isDiFmStream streamUrl = true
        · right; right
          simpa using fun h3 => hacc ⟨h1, h2, h3⟩
        · right; left; simpa using h2
      · left; simpa using h1
    rw [requestArtwork_rejected env s index streamUrl title artistOrStation h]

/-- A `requestArtwork` call never writes to the cache. -/
theorem requestArtwork_mCache [QUnicodeTables] (env : Env) (s : RadioArtworkResolver)
    (index : QPersistentModelIndex) (streamUrl : QUrl) (title artistOrStation : QString) :
    (requestArtwork env s index streamUrl title artistOrStation).1.mCache = s.mCache := by
  rcases requestArtwork_shape env s index streamUrl title artistOrStation with h | h | h | h <;>
    rw [h]

/-- A `requestArtwork` call leaves the waiters of every other key alone. -/
theorem requestArtwork_mPending_of_ne [QUnicodeTables] (env : Env) (s : RadioArtworkResolver)
    (index : QPersistentModelIndex) (streamUrl : QUrl) (title artistOrStation : QString)
    {k : QString} (hk : k ≠ requestKey title artistOrStation) :
    (requestArtwork env s index streamUrl title artistOrStation).1.mPending k
      = s.mPending k := by
  rcases requestArtwork_shape env s index streamUrl title artistOrStation with h | h | h | h <;>
    rw [h] <;> simp [QHash.insert, QHash.remove, hk]

/-- A `requestArtwork` call leaves the in-flight mark of every other key alone. -/
theorem requestArtwork_mInFlight_of_ne [QUnicodeTables] (env : Env) (s : RadioArtworkResolver)
    (index : QPersistentModelIndex) (streamUrl : QUrl) (title artistOrStation : QString)
    {k : QString} (hk : k ≠ requestKey title artistOrStation) :
    (requestArtwork env s index streamUrl title artistOrStation).1.mInFlight k
      = s.mInFlight k := by
  rcases requestArtwork_shape env s index streamUrl title artistOrStation with h | h | h | h <;>
    rw [h] <;> simp [QSet.insert, QSet.remove, hk]

/-- In a state that satisfies the invariant, the handler of an outstanding reply keeps every
cache entry. -/
theorem replyFinished_keeps_cache {s : RadioArtworkResolver} (hi : Inv s) (env : Env)
    (reply : QNetworkReply) (networkError : Bool) (document : QJsonDocument)
    (hr : s.mReplyKey.contains reply = true) {k : QString} {u : QUrl}
    (hu : s.mCache k = some u) :
    (replyFinished env s reply networkError document).1.mCache k = some u := by
  obtain ⟨key, hkey⟩ := QHash.contains_eq_true.mp hr
  obtain ⟨url, hurl⟩ := replyFinished_eq env s reply networkError document
  have hv : s.mReplyKey.value reply = key := by simp [QHash.value, hkey]
  have hne : k ≠ key := by
    rintro rfl
    have h1 := hi.cache_inflight k (by simp [hu])
    have h2 := (hi.inflight_iff k).mpr ⟨reply, hkey⟩
    rw [h1] at h2
    exact Bool.noConfusion h2
  rw [hurl, hv, finishKey_mCache]
  split_ifs
  · rw [QHash.insert_of_ne _ _ hne]; exact hu
  · exact hu

/-- A step leads from a reachable state to a reachable state. -/
theorem Step.reachable [QUnicodeTables]
    {s t : RadioArtworkResolver} (hs : Reachable s) (h : Step s t) :
    Reachable t := by
  cases h with
  | request env index streamUrl title artistOrStation hr =>
    exact Reachable.request env index streamUrl title artistOrStation hs hr
  | finished env reply networkError document hr =>
    exact Reachable.finished env reply networkError document hs hr

/-- A step from a reachable state keeps every cache entry. -/
theorem Step.keeps_cache [QUnicodeTables]
    {s t : RadioArtworkResolver} (hs : Reachable s) (h : Step s t)
    {k : QString} {u : QUrl} (hu : s.mCache k = some u) : t.mCache k = some u := by
  cases h with
  | request env index streamUrl title artistOrStation hr =>
    rw [requestArtwork_mCache]; exact hu
  | finished env reply networkError document hr =>
    exact replyFinished_keeps_cache (reachable_inv hs) env reply networkError document hr hu

/-- C11: along every execution from the initial state, a cache entry, once written, stays:
if `mCache[key] = u` in a reachable state then `mCache[key] = u` in every state reached from
it by `requestArtwork` calls and reply handlers. -/
theorem C11_cache_entries_are_immutable [QUnicodeTables]
    (s t : RadioArtworkResolver) (hs : Reachable s)
    (hst : Relation.ReflTransGen Step s t) (key : QString) (u : QUrl)
    (hu : s.mCache key = some u) :
    Reachable t ∧ t.mCache key = some u := by
  induction hst with
  | refl => exact ⟨hs, hu⟩
  | tail _ hstep ih => exact ⟨hstep.reachable ih.1, hstep.keeps_cache ih.1 ih.2⟩

/-- C11, from the state in which "a - b" is cached, through a request for "C - D" and the
handler of its reply. -/
theorem C11_cache_entries_are_immutable_witness :
    stateCached.mCache "a - b".toList = some imgUrl
      ∧ (replyFinished envImg stateCachedBusy 8 false imgDocument).1.mCache "a - b".toList
        = some imgUrl :=
  ⟨by decide,
    (C11_cache_entries_are_immutable stateCached
      (replyFinished envImg stateCachedBusy 8 false imgDocument).1 stateCached_reachable
      (Relation.ReflTransGen.tail
        (Relation.ReflTransGen.single
          (Step.request stateCached envImg 2 diFmUrl "C - D".toList [] (by decide)))
        (Step.finished stateCachedBusy envImg 8 false imgDocument (by decide)))
      "a - b".toList imgUrl (by decide)).2⟩

/-- C16: a `requestArtwork` call whose text derives the key `key` (accepted, or rejected
for its index or stream), and `finishKey` for `key`, leave every other key as it was: its
entry in `mCache`, its waiters in `mPending` and its membership in `mInFlight`. -/
theorem C16_keys_are_independent [QUnicodeTables] (env : Env) (s : RadioArtworkResolver)
    (index : QPersistentModelIndex) (streamUrl : QUrl) (title artistOrStation : QString)
    (key other : QString) (url : QUrl)
    (hkey : requestKey title artistOrStation = key) (hne : other ≠ key) :
    ((requestArtwork env s index streamUrl title artistOrStation).1.mCache other
          = s.mCache other
        ∧ (requestArtwork env s index streamUrl title artistOrStation).1.mPending other
          = s.mPending other
        ∧ (requestArtwork env s index streamUrl title artistOrStation).1.mInFlight.contains
            other = s.mInFlight.contains other)
      ∧ ((finishKey env s key url).1.mCache other = s.mCache other
        ∧ (finishKey env s key url).1.mPending other = s.mPending other
        ∧ (finishKey env s key url).1.mInFlight.contains other
          = s.mInFlight.contains other) := by
  subst hkey
  refine ⟨⟨by rw [requestArtwork_mCache], requestArtwork_mPending_of_ne _ _ _ _ _ _ hne,
    requestArtwork_mInFlight_of_ne _ _ _ _ _ _ hne⟩, ?_, ?_, ?_⟩
  · rw [finishKey_mCache]
    split_ifs
    · exact QHash.insert_of_ne _ _ hne
    · rfl
  · rw [finishKey_mPending]; exact QHash.remove_of_ne _ hne
  · rw [finishKey_mInFlight]; simp [QSet.contains, QSet.remove, hne]

/-- C16, at the state in which "a - b" is in flight: a request for "C - D" and the
resolution of "c - d" leave the waiters of "a - b" alone. -/
theorem C16_keys_are_independent_witness :
    (requestArtwork envImg stateInFlight 2 diFmUrl "C - D".toList []).1.mPending
          "a - b".toList = some [1]
      ∧ (finishKey envImg stateInFlight "c - d".toList imgUrl).1.mPending "a - b".toList
        = some [1] := by
  have h := C16_keys_are_independent envImg stateInFlight 2 diFmUrl "C - D".toList []
    "c - d".toList "a - b".toList imgUrl (by decide) (by decide)
  exact ⟨h.1.2.1.trans (by decide), h.2.2.1.trans (by decide)⟩

/-- C17: in every reachable state a key is in `mPending` exactly when it is in `mInFlight`,
no sequence stored in `mPending` is empty, no key is both in `mCache` and in `mInFlight`,
and every URL stored in `mCache` is valid and non-empty. -/
theorem C17_bookkeeping_invariant [QUnicodeTables] (s : RadioArtworkResolver) (hs : Reachable s) :
    (∀ k, s.mPending.contains k = true ↔ s.mInFlight.contains k = true)
      ∧ (∀ k ws, s.mPending k = some ws → ws ≠ [])
      ∧ (∀ k, ¬ (s.mCache.contains k = true ∧ s.mInFlight.contains k = true))
      ∧ (∀ k u, s.mCache k = some u → u.isValid = true ∧ u.isEmpty = false) := by
  have hi := reachable_inv hs
  refine ⟨hi.pending_iff, ?_, ?_, hi.cache_valid⟩
  · intro k ws hk hws
    subst hws
    exact hi.pending_ne k hk
  · rintro k ⟨h1, h2⟩
    have h3 := hi.cache_inflight k h1
    have h4 : s.mInFlight k = true := h2
    rw [h3] at h4
    exact Bool.noConfusion h4

/-- C17, at the state in which "a - b" is cached and "c - d" is in flight. -/
theorem C17_bookkeeping_invariant_witness :
    Reachable stateCachedBusy
      ∧ (stateCachedBusy.mPending.contains "c - d".toList = true
          ↔ stateCachedBusy.mInFlight.contains "c - d".toList = true)
      ∧ ¬ (stateCachedBusy.mCache.contains "a - b".toList = true
          ∧ stateCachedBusy.mInFlight.contains "a - b".toList = true) :=
  have hr : Reachable stateCachedBusy :=
    Reachable.request envImg 2 diFmUrl "C - D".toList [] stateCached_reachable (by decide)
  ⟨hr, (C17_bookkeeping_invariant stateCachedBusy hr).1 "c - d".toList,
    (C17_bookkeeping_invariant stateCachedBusy hr).2.2.1 "a - b".toList⟩

end RadioArtworkResolver

namespace RadioArtworkResolver

/-! ## The lookup and its completion -/

/-- The handler of a reply that reported an error. -/
theorem replyFinished_error (env : Env) (s : RadioArtworkResolver) (reply : QNetworkReply)
    (document : QJsonDocument) :
    replyFinished env s reply true document
      = finishKey env { s with mReplyKey := s.mReplyKey.remove reply }
          (s.mReplyKey.value reply) {} := by
  simp [replyFinished]

/-- The handler of a reply whose payload is not a JSON object. -/
theorem replyFinished_notObject (env : Env) (s : RadioArtworkResolver) (reply : QNetworkReply)
    (document : QJsonDocument) (hd : document.isObject = false) :
    replyFinished env s reply false document
      = finishKey env { s with mReplyKey := s.mReplyKey.remove reply }
          (s.mReplyKey.value reply) {} := by
  simp [replyFinished, hd]

/-- The handler of a reply whose `results` member is missing, not an array or empty. -/
theorem replyFinished_noResults (env : Env) (s : RadioArtworkResolver) (reply : QNetworkReply)
    (members : List (QString × QJsonValue))
    (hres : (QJsonObject.value members "results".toList).toArray = []) :
    replyFinished env s reply false (QJsonDocument.object members)
      = finishKey env { s with mReplyKey := s.mReplyKey.remove reply }
          (s.mReplyKey.value reply) {} := by
  unfold replyFinished
  dsimp only [QJsonDocument.isObject, QJsonDocument.members]
  rw [hres]
  simp

/-- The handler of a reply with at least one result: the URL comes from the first result. -/
theorem replyFinished_results (env : Env) (s : RadioArtworkResolver) (reply : QNetworkReply)
    (members : List (QString × QJsonValue)) (r : QJsonValue) (rest : List QJsonValue)
    (hres : QJsonObject.value members "results".toList = QJsonValue.array (r :: rest)) :
    replyFinished env s reply false (QJsonDocument.object members)
      = finishKey env { s with mReplyKey := s.mReplyKey.remove reply }
          (s.mReplyKey.value reply)
          (env.parseUrl
            (if (QJsonObject.value r.toObject "cover_image".toList).toQString.isEmpty then
              (QJsonObject.value r.toObject "thumb".toList).toQString
            else (QJsonObject.value r.toObject "cover_image".toList).toQString)) := by
  unfold replyFinished
  dsimp only [QJsonDocument.isObject, QJsonDocument.members]
  rw [hres]
  simp [QJsonValue.toArray, QJsonArray.first]

/-- For an empty URL the outcome of `finishKey` does not depend on which empty URL it is. -/
theorem finishKey_empty_eq (env : Env) (s : RadioArtworkResolver) (key : QString) (url : QUrl)
    (he : url.isEmpty = true) : finishKey env s key url = finishKey env s key {} := by
  rw [finishKey_empty env s key url he, finishKey_empty env s key {} (by decide)]

/-- C14: every lookup ends in one `finishKey` call for its key.  Without a token,
`startDiscogsLookup` is that call, with the empty URL.  With a token, `startDiscogsLookup`
changes nothing but `mReplyKey`, where it records the key under the reply; and whenever the
handler runs for a reply recorded under `key`, on each of its paths its outcome is that of
`finishKey(key, url)`, for one URL, made on the state from which the reply's entry has been
removed, and the entry is absent afterwards. -/
theorem C14_exactly_once_resolution (env : Env) (s : RadioArtworkResolver)
    (key artist title : QString) (env2 : Env) (s2 : RadioArtworkResolver)
    (reply : QNetworkReply) (networkError : Bool) (document : QJsonDocument)
    (h2 : s2.mReplyKey reply = some key) :
    (QString.trimmed env.discogsToken = [] →
        startDiscogsLookup env s key artist title = finishKey env s key {})
      ∧ (QString.trimmed env.discogsToken ≠ [] →
        (startDiscogsLookup env s key artist title).1.mReplyKey env.reply = some key
          ∧ (startDiscogsLookup env s key artist title).1.mCache = s.mCache
          ∧ (startDiscogsLookup env s key artist title).1.mPending = s.mPending
          ∧ (startDiscogsLookup env s key artist title).1.mInFlight = s.mInFlight)
      ∧ (∃ url, replyFinished env2 s2 reply networkError document
          = finishKey env2 { s2 with mReplyKey := s2.mReplyKey.remove reply } key url)
      ∧ (replyFinished env2 s2 reply networkError document).1.mReplyKey reply = none := by
  have hv : s2.mReplyKey.value reply = key := by simp [QHash.value, h2]
  obtain ⟨url, hurl⟩ := replyFinished_eq env2 s2 reply networkError document
  refine ⟨fun ht => startDiscogsLookup_noToken s key artist title ht, fun ht => ?_,
    ⟨url, by rw [hurl, hv]⟩, ?_⟩
  · rw [startDiscogsLookup_token s key artist title ht]
    exact ⟨QHash.insert_self _ _ _, rfl, rfl, rfl⟩
  · rw [hurl, finishKey_mReplyKey]
    exact QHash.remove_self _ _

/-- C14, at the state in which "a - b" is in flight under reply number 7 and the reply
reports an error: the handler is `finishKey("a - b", {})` on the state without the entry. -/
theorem C14_exactly_once_resolution_witness :
    stateInFlight.mReplyKey 7 = some "a - b".toList
      ∧ (replyFinished envImg stateInFlight 7 true imgDocument).1.mReplyKey 7 = none
      ∧ (replyFinished envImg stateInFlight 7 true imgDocument).1.mInFlight.contains
          "a - b".toList = false := by
  have h := C14_exactly_once_resolution envToken {} "a - b".toList "A".toList "B".toList
    envImg stateInFlight 7 true imgDocument (by decide)
  exact ⟨by decide, h.2.2.2, by decide⟩

/-- C15: the handler resolves with the empty URL when the reply reports an error, when the
payload is not a JSON object, and when `results` is missing, not an array or empty.
Otherwise, with `r` the first element of `results` and whatever the other elements are, it
resolves with the URL built from `r.cover_image` when that is a non-empty string, else with
the URL built from `r.thumb` when that is a non-empty string, else with the empty URL (the
URL Qt builds from the empty string being empty). -/
theorem C15_result_extraction (env : Env) (s : RadioArtworkResolver) (reply : QNetworkReply)
    (hp : (env.parseUrl []).isEmpty = true) :
    (∀ document, replyFinished env s reply true document
        = finishKey env { s with mReplyKey := s.mReplyKey.remove reply }
            (s.mReplyKey.value reply) {})
      ∧ (∀ document, document.isObject = false →
        replyFinished env s reply false document
          = finishKey env { s with mReplyKey := s.mReplyKey.remove reply }
              (s.mReplyKey.value reply) {})
      ∧ (∀ members, (QJsonObject.value members "results".toList).toArray = [] →
        replyFinished env s reply false (QJsonDocument.object members)
          = finishKey env { s with mReplyKey := s.mReplyKey.remove reply }
              (s.mReplyKey.value reply) {})
      ∧ (∀ members r rest,
        QJsonObject.value members "results".toList = QJsonValue.array (r :: rest) →
        ((QJsonObject.value r.toObject "cover_image".toList).toQString ≠ [] →
          replyFinished env s reply false (QJsonDocument.object members)
            = finishKey env { s with mReplyKey := s.mReplyKey.remove reply }
                (s.mReplyKey.value reply)
                (env.parseUrl (QJsonObject.value r.toObject "cover_image".toList).toQString))
        ∧ ((QJsonObject.value r.toObject "cover_image".toList).toQString = [] →
          (QJsonObject.value r.toObject "thumb".toList).toQString ≠ [] →
          replyFinished env s reply false (QJsonDocument.object members)
            = finishKey env { s with mReplyKey := s.mReplyKey.remove reply }
                (s.mReplyKey.value reply)
                (env.parseUrl (QJsonObject.value r.toObject "thumb".toList).toQString))
        ∧ ((QJsonObject.value r.toObject "cover_image".toList).toQString = [] →
          (QJsonObject.value r.toObject "thumb".toList).toQString = [] →
          replyFinished env s reply false (QJsonDocument.object members)
            = finishKey env { s with mReplyKey := s.mReplyKey.remove reply }
                (s.mReplyKey.value reply) {})) := by
  refine ⟨fun d => replyFinished_error env s reply d,
    fun d hd => replyFinished_notObject env s reply d hd,
    fun m hm => replyFinished_noResults env s reply m hm, ?_⟩
  intro members r rest hres
  have h := replyFinished_results env s reply members r rest hres
  refine ⟨fun hc => ?_, fun hc ht => ?_, fun hc ht => ?_⟩
  · rw [h, if_neg (fun he => hc (List.isEmpty_iff.mp he))]
  · rw [h, if_pos (List.isEmpty_iff.mpr hc)]
  · rw [h, if_pos (List.isEmpty_iff.mpr hc), ht]
    exact finishKey_empty_eq _ _ _ _ hp

/-- C15, at the state in which "a - b" is in flight and a reply whose first result has only
a `thumb` and whose second result has a `cover_image`: waiter 1 is notified with the URL
built from the `thumb` of the first result. -/
theorem C15_result_extraction_witness :
    (envParse.parseUrl []).isEmpty = true
      ∧ (replyFinished envParse stateInFlight 7 false thumbDocument).2
        = [Event.artworkResolved 1 imgUrl] := by
  have h := (C15_result_extraction envParse stateInFlight 7 (by decide)).2.2.2
    [("results".toList,
      QJsonValue.array
        [QJsonValue.object [("thumb".toList, QJsonValue.string "http://img".toList)],
          QJsonValue.object [("cover_image".toList, QJsonValue.string "x".toList)]])]
    (QJsonValue.object [("thumb".toList, QJsonValue.string "http://img".toList)])
    [QJsonValue.object [("cover_image".toList, QJsonValue.string "x".toList)]] rfl
  refine ⟨by decide, ?_⟩
  have h2 := h.2.1 (by decide) (by decide)
  exact (congrArg Prod.snd h2).trans (by decide)

end RadioArtworkResolver

namespace QString

/-! ## Trimming -/

theorem startsWithSpace_dropWhile (s : QString) :
    startsWithSpace (s.dropWhile QChar.isSpace) = false := by
  induction s with
  | nil => rfl
  | cons c rest ih =>
    by_cases hc : QChar.isSpace c = true
    · simpa [List.dropWhile, hc] using ih
    · simp [List.dropWhile, hc, startsWithSpace]

theorem endsWithSpace_trimmed (s : QString) : endsWithSpace (trimmed s) = false := by
  unfold endsWithSpace trimmed
  rw [List.reverse_reverse]
  exact startsWithSpace_dropWhile _

theorem startsWithSpace_of_initial {a b : QString} (h : a <+: b) (ha : a ≠ [])
    (hb : startsWithSpace b = false) : startsWithSpace a = false := by
  obtain ⟨t, rfl⟩ := h
  cases a with
  | nil => exact absurd rfl ha
  | cons c rest => simpa [startsWithSpace] using hb

theorem trimmed_prefix_dropWhile (s : QString) :
    trimmed s <+: s.dropWhile QChar.isSpace :=
  List.rdropWhile_prefix QChar.isSpace (s.dropWhile QChar.isSpace)

theorem startsWithSpace_trimmed (s : QString) : startsWithSpace (trimmed s) = false := by
  by_cases h : trimmed s = []
  · rw [h]; rfl
  · exact startsWithSpace_of_initial (trimmed_prefix_dropWhile s) h (startsWithSpace_dropWhile s)

theorem trimmed_infix (s : QString) : trimmed s <:+: s :=
  (trimmed_prefix_dropWhile s).isInfix.trans (List.dropWhile_suffix _).isInfix

theorem trimmed_eq_self {s : QString} (h1 : startsWithSpace s = false)
    (h2 : endsWithSpace s = false) : trimmed s = s := by
  have hd : ∀ l : QString, startsWithSpace l = false → l.dropWhile QChar.isSpace = l := by
    intro l hl
    cases l with
    | nil => rfl
    | cons c rest => simp [startsWithSpace] at hl; simp [List.dropWhile, hl]
  unfold trimmed
  rw [hd s h1, hd s.reverse h2, List.reverse_reverse]

theorem trimmed_trimmed (s : QString) : trimmed (trimmed s) = trimmed s :=
  trimmed_eq_self (startsWithSpace_trimmed s) (endsWithSpace_trimmed s)

theorem trimmed_ne_nil_of_mem {s : QString} {c : Char} (hc : c ∈ s)
    (hs : QChar.isSpace c = false) : trimmed s ≠ [] := by
  intro h
  unfold trimmed at h
  rw [List.reverse_eq_nil_iff, List.dropWhile_eq_nil_iff] at h
  have hall : ∀ x ∈ s.dropWhile QChar.isSpace, QChar.isSpace x = true := by
    intro x hx
    exact h x (List.mem_reverse.mpr hx)
  have hnil : s.dropWhile QChar.isSpace = [] := by
    cases hd : s.dropWhile QChar.isSpace with
    | nil => rfl
    | cons x rest =>
      have h1 := startsWithSpace_dropWhile s
      rw [hd] at h1 hall
      have h2 := hall x (List.mem_cons_self _ _)
      simp [startsWithSpace] at h1
      rw [h1] at h2
      exact Bool.noConfusion h2
  rw [List.dropWhile_eq_nil_iff] at hnil
  have := hnil c hc
  rw [hs] at this
  exact Bool.noConfusion this

end QString

namespace QString

/-! ## Occurrences of a substring -/

theorem contains_iff_infix (s sub : QString) : contains s sub = true ↔ sub <:+: s := by
  induction s with
  | nil => simp [contains, List.isEmpty_iff]
  | cons c rest ih =>
    rw [contains, Bool.or_eq_true, List.isPrefixOf_iff_prefix, ih, List.infix_cons_iff]

theorem contains_eq_false_iff (s sub : QString) : contains s sub = false ↔ ¬ sub <:+: s := by
  rw [← contains_iff_infix]; simp

theorem indexOf_of_match {s sub : QString} (h : sub <+: s) : indexOf s sub = some 0 := by
  cases s with
  | nil =>
    have : sub = [] := List.prefix_nil.mp h
    simp [indexOf, this]
  | cons c rest =>
    have : sub.isPrefixOf (c :: rest) = true := List.isPrefixOf_iff_prefix.mpr h
    simp [indexOf, this]

theorem indexOf_cons_of_no_match {c : Char} {rest sub : QString}
    (h : ¬ sub <+: c :: rest) :
    indexOf (c :: rest) sub = (indexOf rest sub).map (· + 1) := by
  have : sub.isPrefixOf (c :: rest) = false := by
    rw [← Bool.not_eq_true, List.isPrefixOf_iff_prefix]; exact h
  simp [indexOf, this]

theorem indexOf_isSome (s sub : QString) : (indexOf s sub).isSome = contains s sub := by
  induction s with
  | nil => by_cases h : sub.isEmpty = true <;> simp [indexOf, contains, h]
  | cons c rest ih =>
    by_cases h : sub <+: c :: rest
    · rw [indexOf_of_match h, contains, List.isPrefixOf_iff_prefix.mpr h]; rfl
    · have h2 : sub.isPrefixOf (c :: rest) = false := by
        rw [← Bool.not_eq_true, List.isPrefixOf_iff_prefix]; exact h
      rw [indexOf_cons_of_no_match h, contains, h2, Option.isSome_map', ih]; rfl

/-- The text splits at the first occurrence into what precedes it, the substring and what
follows it. -/
theorem take_append_drop_of_indexOf {sub : QString} :
    ∀ {s : QString} {i : Nat}, indexOf s sub = some i →
      s.take i ++ sub ++ s.drop (i + sub.length) = s := by
  intro s
  induction s with
  | nil =>
    intro i h
    by_cases he : sub.isEmpty = true
    · have : sub = [] := List.isEmpty_iff.mp he
      subst this; simp
    · simp [indexOf, he] at h
  | cons c rest ih =>
    intro i h
    by_cases hp : sub <+: c :: rest
    · rw [indexOf_of_match hp] at h
      cases h
      simpa using List.prefix_iff_eq_append.mp hp
    · rw [indexOf_cons_of_no_match hp] at h
      cases hi : indexOf rest sub with
      | none => rw [hi] at h; cases h
      | some j =>
        rw [hi] at h
        cases h
        have := ih hi
        simp only [List.take_succ_cons, List.cons_append, Nat.add_right_comm j 1,
          List.drop_succ_cons]
        rw [this]

/-- No occurrence starts before the first one. -/
theorem not_infix_take_of_indexOf {sub : QString} (hsub : sub ≠ []) :
    ∀ {s : QString} {i : Nat}, indexOf s sub = some i → ¬ sub <:+: s.take i := by
  intro s
  induction s with
  | nil => intro i _ h; simp at h; exact hsub h
  | cons c rest ih =>
    intro i h
    by_cases hp : sub <+: c :: rest
    · rw [indexOf_of_match hp] at h
      cases h
      intro h2
      simp at h2
      exact hsub h2
    · rw [indexOf_cons_of_no_match hp] at h
      cases hi : indexOf rest sub with
      | none => rw [hi] at h; cases h
      | some j =>
        rw [hi] at h
        cases h
        rw [List.take_succ_cons, List.infix_cons_iff]
        rintro (h2 | h2)
        · exact hp (h2.trans (List.prefix_cons_inj c |>.mpr (List.take_prefix j rest)))
        · exact ih hi h2

/-- When `a` followed by all but the last character of the substring contains no
occurrence, the first occurrence in `a ++ sub ++ x` is the one after `a`. -/
theorem indexOf_append_of_not_infix (p : QString) (z : Char) (x : QString) :
    ∀ a : QString, ¬ (p ++ [z]) <:+: (a ++ p) →
      indexOf (a ++ (p ++ [z]) ++ x) (p ++ [z]) = some a.length := by
  intro a
  induction a with
  | nil =>
    intro _
    exact indexOf_of_match (by simp)
  | cons c a ih =>
    intro h
    have hnp : ¬ (p ++ [z]) <+: c :: (a ++ (p ++ [z]) ++ x) := by
      intro hp
      apply h
      have h1 : (c :: a ++ p) <+: c :: (a ++ (p ++ [z]) ++ x) := by
        refine ⟨[z] ++ x, ?_⟩
        simp
      exact (List.prefix_of_prefix_length_le hp h1 (by simp)).isInfix
    have hrest : ¬ (p ++ [z]) <:+: (a ++ p) := by
      intro h2
      exact h (List.infix_cons_iff.mpr (Or.inr h2))
    rw [List.cons_append, List.cons_append, indexOf_cons_of_no_match hnp, ih hrest]
    rfl

/-! ## Splitting -/

theorem splitFrom_ne_nil (sep : QString) :
    ∀ (s : QString) (k : Nat) (cur : QString), splitFrom sep k cur s ≠ [] := by
  intro s
  induction s with
  | nil => intro k cur; simp [splitFrom]
  | cons c rest ih =>
    intro k cur
    cases k with
    | zero =>
      rw [splitFrom]
      split_ifs
      · simp
      · exact ih _ _
    | succ k => rw [splitFrom]; exact ih _ _

theorem splitFrom_skip (sep : QString) :
    ∀ (k : Nat) (s cur : QString), k ≤ s.length →
      splitFrom sep k cur s = splitFrom sep 0 cur (s.drop k) := by
  intro k
  induction k with
  | zero => intro s cur _; rfl
  | succ k ih =>
    intro s cur hk
    cases s with
    | nil => simp at hk
    | cons c rest =>
      rw [splitFrom, List.drop_succ_cons]
      exact ih rest cur (by simpa using hk)

theorem splitFrom_of_indexOf_none {sep : QString} :
    ∀ (s cur : QString), indexOf s sep = none → splitFrom sep 0 cur s = [cur ++ s] := by
  intro s
  induction s with
  | nil => intro cur _; simp [splitFrom]
  | cons c rest ih =>
    intro cur h
    by_cases hp : sep <+: c :: rest
    · rw [indexOf_of_match hp] at h; cases h
    · have h2 : sep.isPrefixOf (c :: rest) = false := by
        rw [← Bool.not_eq_true, List.isPrefixOf_iff_prefix]; exact hp
      rw [indexOf_cons_of_no_match hp] at h
      have h3 : indexOf rest sep = none := by
        cases hi : indexOf rest sep with
        | none => rfl
        | some j => rw [hi] at h; cases h
      rw [splitFrom, h2]
      simp [ih (cur ++ [c]) h3]

theorem splitFrom_of_indexOf_some {sep : QString} (hsep : sep ≠ []) :
    ∀ (s cur : QString) (i : Nat), indexOf s sep = some i →
      splitFrom sep 0 cur s
        = (cur ++ s.take i) :: splitFrom sep 0 [] (s.drop (i + sep.length)) := by
  intro s
  induction s with
  | nil =>
    intro cur i h
    have : sep.isEmpty = false := by
      cases sep with
      | nil => exact absurd rfl hsep
      | cons _ _ => rfl
    simp [indexOf, this] at h
  | cons c rest ih =>
    intro cur i h
    by_cases hp : sep <+: c :: rest
    · have h2 : sep.isPrefixOf (c :: rest) = true := List.isPrefixOf_iff_prefix.mpr hp
      rw [indexOf_of_match hp] at h
      cases h
      have hlen : sep.length - 1 ≤ rest.length := by
        have := hp.length_le
        simp at this
        omega
      have hpos : 0 < sep.length := List.length_pos.mpr hsep
      rw [splitFrom, h2, if_pos rfl, splitFrom_skip sep _ rest [] hlen]
      have hd : (c :: rest).drop (0 + sep.length) = rest.drop (sep.length - 1) := by
        obtain ⟨n, hn⟩ : ∃ n, sep.length = n + 1 := ⟨sep.length - 1, by omega⟩
        rw [hn]; simp
      rw [hd]; simp
    · have h2 : sep.isPrefixOf (c :: rest) = false := by
        rw [← Bool.not_eq_true, List.isPrefixOf_iff_prefix]; exact hp
      rw [indexOf_cons_of_no_match hp] at h
      cases hi : indexOf rest sep with
      | none => rw [hi] at h; cases h
      | some j =>
        rw [hi] at h
        cases h
        rw [splitFrom, h2, ih (cur ++ [c]) j hi]
        simp [Nat.add_right_comm j 1]

theorem intercalate_cons_of_ne_nil (sep a : QString) {l : List QString} (hl : l ≠ []) :
    List.intercalate sep (a :: l) = a ++ sep ++ List.intercalate sep l := by
  cases l with
  | nil => exact absurd rfl hl
  | cons b l => simp [List.intercalate, List.intersperse]

/-- Joining the segments of a split with the separator gives the text back. -/
theorem join_splitFrom {sep : QString} (hsep : sep ≠ []) :
    ∀ (n : Nat) (s cur : QString), s.length ≤ n →
      QStringList.join (splitFrom sep 0 cur s) sep = cur ++ s := by
  intro n
  induction n with
  | zero =>
    intro s cur hs
    have : s = [] := List.length_eq_zero.mp (Nat.le_zero.mp hs)
    subst this
    simp [splitFrom, QStringList.join, List.intercalate, List.intersperse]
  | succ n ih =>
    intro s cur hs
    cases hi : indexOf s sep with
    | none =>
      rw [splitFrom_of_indexOf_none s cur hi]
      simp [QStringList.join, List.intercalate, List.intersperse]
    | some i =>
      have hdec := take_append_drop_of_indexOf hi
      have hpos : 0 < sep.length := List.length_pos.mpr hsep
      have hlen : (s.drop (i + sep.length)).length ≤ n := by
        have h1 : s.length = (s.take i ++ sep ++ s.drop (i + sep.length)).length := by
          rw [hdec]
        simp only [List.length_append] at h1
        omega
      have hrec := ih (s.drop (i + sep.length)) [] hlen
      rw [splitFrom_of_indexOf_some hsep s cur i hi]
      unfold QStringList.join at hrec ⊢
      rw [intercalate_cons_of_ne_nil sep _ (splitFrom_ne_nil sep _ _ _), hrec]
      simp only [List.nil_append, List.append_assoc]
      rw [← List.append_assoc (s.take i), hdec]

end QString

namespace RadioArtworkResolver

/-! ## Parsing -/

theorem separator_ne_nil : " - ".toList ≠ [] := by decide

/-- The outcome of parsing a text whose trimmed form has its first separator at `i`. -/
theorem parseArtistTitle_of_indexOf (streamTitle artistOrStation artist title : QString)
    (i : Nat) (hi : QString.indexOf (QString.trimmed streamTitle) " - ".toList = some i) :
    parseArtistTitle streamTitle artistOrStation artist title
      = (!(QString.trimmed ((QString.trimmed streamTitle).take i)).isEmpty
          && !(QString.trimmed ((QString.trimmed streamTitle).drop (i + 3))).isEmpty,
        QString.trimmed ((QString.trimmed streamTitle).take i),
        QString.trimmed ((QString.trimmed streamTitle).drop (i + 3))) := by
  have hc : QString.contains (QString.trimmed streamTitle) " - ".toList = true := by
    rw [← QString.indexOf_isSome, hi]; rfl
  have hsplit := QString.splitFrom_of_indexOf_some separator_ne_nil
    (QString.trimmed streamTitle) [] i hi
  have h3 : " - ".toList.length = 3 := rfl
  rw [h3, List.nil_append] at hsplit
  have hjoin := QString.join_splitFrom separator_ne_nil _
    ((QString.trimmed streamTitle).drop (i + 3)) [] (le_refl _)
  rw [List.nil_append] at hjoin
  have hlen : ((QString.trimmed streamTitle).take i
      :: QString.splitFrom " - ".toList 0 [] ((QString.trimmed streamTitle).drop (i + 3))).length
        ≥ 2 := by
    have hne := QString.splitFrom_ne_nil " - ".toList
      ((QString.trimmed streamTitle).drop (i + 3)) 0 []
    have := List.length_pos.mpr hne
    simp only [List.length_cons]
    omega
  unfold parseArtistTitle
  dsimp only
  rw [if_pos hc, QString.split, hsplit, if_pos hlen]
  simp only [List.headD_cons, List.drop_succ_cons, List.drop_zero]
  rw [hjoin]

/-- The outcome of parsing a text without separator. -/
theorem parseArtistTitle_of_not_contains (streamTitle artistOrStation : QString)
    (hc : QString.contains (QString.trimmed streamTitle) " - ".toList = false) :
    parseArtistTitle streamTitle artistOrStation [] []
      = if (QString.trimmed artistOrStation ≠ [] ∧ QString.trimmed streamTitle ≠ []) then
          (true, QString.trimmed artistOrStation, QString.trimmed streamTitle)
        else (false, [], []) := by
  unfold parseArtistTitle
  dsimp only
  rw [if_neg (by rw [hc]; exact Bool.false_ne_true)]
  by_cases h1 : QString.trimmed artistOrStation = []
  · simp [h1]
  · by_cases h2 : QString.trimmed streamTitle = []
    · simp [h2]
    · have e1 : (QString.trimmed artistOrStation).isEmpty = false := by
        rw [← Bool.not_eq_true, List.isEmpty_iff]; exact h1
      have e2 : (QString.trimmed streamTitle).isEmpty = false := by
        rw [← Bool.not_eq_true, List.isEmpty_iff]; exact h2
      simp [h1, h2, e1, e2]

end RadioArtworkResolver

namespace QString

/-! ## Outer whitespace and concatenation -/

theorem startsWithSpace_append {a : QString} (b : QString) (ha : a ≠ []) :
    startsWithSpace (a ++ b) = startsWithSpace a := by
  cases a with
  | nil => exact absurd rfl ha
  | cons c rest => rfl

theorem endsWithSpace_append (a : QString) {b : QString} (hb : b ≠ []) :
    endsWithSpace (a ++ b) = endsWithSpace b := by
  unfold endsWithSpace
  rw [List.reverse_append]
  exact startsWithSpace_append _ (by simpa using hb)

/-- In a text that does not start with whitespace, what precedes the first " - " does not
trim to nothing. -/
theorem trimmed_take_ne_nil {t : QString} (h1 : startsWithSpace t = false) {i : Nat}
    (hi : indexOf t " - ".toList = some i) : trimmed (t.take i) ≠ [] := by
  have hdec := take_append_drop_of_indexOf hi
  cases i with
  | zero =>
    rw [List.take_zero, List.nil_append] at hdec
    have h : startsWithSpace (" - ".toList ++ t.drop (0 + " - ".toList.length)) = true := rfl
    rw [hdec, h1] at h
    exact Bool.noConfusion h
  | succ j =>
    cases t with
    | nil => simp [indexOf] at hi
    | cons c rest =>
      have hc : QChar.isSpace c = false := h1
      exact trimmed_ne_nil_of_mem (by simp) hc

/-- In a text that does not end with whitespace, what follows the first " - " does not trim
to nothing. -/
theorem trimmed_drop_ne_nil {t : QString} (h2 : endsWithSpace t = false) {i : Nat}
    (hi : indexOf t " - ".toList = some i) : trimmed (t.drop (i + 3)) ≠ [] := by
  have hdec := take_append_drop_of_indexOf hi
  have h3 : " - ".toList.length = 3 := rfl
  rw [h3] at hdec
  cases hd : (t.drop (i + 3)).reverse with
  | nil =>
    rw [List.reverse_eq_nil_iff] at hd
    rw [hd, List.append_nil] at hdec
    have h : endsWithSpace " - ".toList = true := by decide
    rw [← endsWithSpace_append (t.take i) RadioArtworkResolver.separator_ne_nil, hdec, h2] at h
    exact Bool.noConfusion h
  | cons x r =>
    have hne : t.drop (i + 3) ≠ [] := by
      intro h; rw [h] at hd; cases hd
    rw [← hdec, endsWithSpace_append _ hne] at h2
    unfold endsWithSpace at h2
    rw [hd] at h2
    have hx : QChar.isSpace x = false := h2
    have hmem : x ∈ t.drop (i + 3) := by
      rw [← List.mem_reverse, hd]; exact List.mem_cons_self _ _
    exact trimmed_ne_nil_of_mem hmem hx

end QString

namespace RadioArtworkResolver

/-- A successful parse returns two non-empty trimmed strings. -/
theorem parseArtistTitle_success (streamTitle artistOrStation : QString)
    (h : (parseArtistTitle streamTitle artistOrStation [] []).1 = true) :
    ∃ x y : QString,
      (parseArtistTitle streamTitle artistOrStation [] []).2.1 = QString.trimmed x
        ∧ (parseArtistTitle streamTitle artistOrStation [] []).2.2 = QString.trimmed y
        ∧ QString.trimmed x ≠ [] ∧ QString.trimmed y ≠ [] := by
  cases hi : QString.indexOf (QString.trimmed streamTitle) " - ".toList with
  | some i =>
    rw [parseArtistTitle_of_indexOf _ _ _ _ i hi] at h ⊢
    simp only [Bool.and_eq_true, Bool.not_eq_true', ← Bool.not_eq_true,
      List.isEmpty_iff] at h
    exact ⟨_, _, rfl, rfl, h.1, h.2⟩
  | none =>
    have hc : QString.contains (QString.trimmed streamTitle) " - ".toList = false := by
      rw [← QString.indexOf_isSome, hi]; rfl
    rw [parseArtistTitle_of_not_contains _ _ hc] at h ⊢
    by_cases hg : QString.trimmed artistOrStation ≠ [] ∧ QString.trimmed streamTitle ≠ []
    · rw [if_pos hg]
      exact ⟨_, _, rfl, rfl, hg.1, hg.2⟩
    · rw [if_neg hg] at h
      exact Bool.noConfusion h

/-- C18: `parseArtistTitle`, called with empty output strings, succeeds exactly when the
trimmed text contains " - ", or the trimmed text and the trimmed fallback are both
non-empty; in particular it always succeeds when the trimmed text contains " - "; and on
every success both outputs are non-empty and neither starts nor ends with whitespace. -/
theorem C18_parse_success_condition (streamTitle artistOrStation : QString) :
    ((parseArtistTitle streamTitle artistOrStation [] []).1 = true ↔
        (QString.contains (QString.trimmed streamTitle) " - ".toList = true
          ∨ (QString.trimmed streamTitle ≠ [] ∧ QString.trimmed artistOrStation ≠ [])))
      ∧ (QString.contains (QString.trimmed streamTitle) " - ".toList = true →
        (parseArtistTitle streamTitle artistOrStation [] []).1 = true
          ∧ QString.trimmed ((QString.split (QString.trimmed streamTitle) " - ".toList).headD [])
            ≠ []
          ∧ QString.trimmed
              (QStringList.join
                ((QString.split (QString.trimmed streamTitle) " - ".toList).drop 1)
                " - ".toList) ≠ [])
      ∧ ((parseArtistTitle streamTitle artistOrStation [] []).1 = true →
        (parseArtistTitle streamTitle artistOrStation [] []).2.1 ≠ []
          ∧ (parseArtistTitle streamTitle artistOrStation [] []).2.2 ≠ []
          ∧ QString.startsWithSpace (parseArtistTitle streamTitle artistOrStation [] []).2.1
            = false
          ∧ QString.endsWithSpace (parseArtistTitle streamTitle artistOrStation [] []).2.1
            = false
          ∧ QString.startsWithSpace (parseArtistTitle streamTitle artistOrStation [] []).2.2
            = false
          ∧ QString.endsWithSpace (parseArtistTitle streamTitle artistOrStation [] []).2.2
            = false) := by
  have hsucc : QString.contains (QString.trimmed streamTitle) " - ".toList = true →
      (parseArtistTitle streamTitle artistOrStation [] []).1 = true
        ∧ QString.trimmed
            ((QString.split (QString.trimmed streamTitle) " - ".toList).headD []) ≠ []
        ∧ QString.trimmed
            (QStringList.join
              ((QString.split (QString.trimmed streamTitle) " - ".toList).drop 1)
              " - ".toList) ≠ [] := by
    intro hc
    rw [← QString.indexOf_isSome, Option.isSome_iff_exists] at hc
    obtain ⟨i, hi⟩ := hc
    have ha := QString.trimmed_take_ne_nil (QString.startsWithSpace_trimmed streamTitle) hi
    have hb := QString.trimmed_drop_ne_nil (QString.endsWithSpace_trimmed streamTitle) hi
    have hsplit := QString.splitFrom_of_indexOf_some separator_ne_nil
      (QString.trimmed streamTitle) [] i hi
    have h3 : " - ".toList.length = 3 := rfl
    rw [h3, List.nil_append] at hsplit
    have hjoin := QString.join_splitFrom separator_ne_nil _
      ((QString.trimmed streamTitle).drop (i + 3)) [] (le_refl _)
    rw [List.nil_append] at hjoin
    refine ⟨?_, ?_, ?_⟩
    · rw [parseArtistTitle_of_indexOf _ _ _ _ i hi]
      simp only [Bool.and_eq_true, Bool.not_eq_true', ← Bool.not_eq_true, List.isEmpty_iff]
      exact ⟨ha, hb⟩
    · rw [QString.split, hsplit]; exact ha
    · rw [QString.split, hsplit]
      simp only [List.drop_succ_cons, List.drop_zero]
      rw [hjoin]; exact hb
  refine ⟨⟨fun h => ?_, fun h => ?_⟩, hsucc, fun h => ?_⟩
  · cases hc : QString.contains (QString.trimmed streamTitle) " - ".toList with
    | true => exact Or.inl rfl
    | false =>
      right
      rw [parseArtistTitle_of_not_contains _ _ hc] at h
      by_cases hg : QString.trimmed artistOrStation ≠ [] ∧ QString.trimmed streamTitle ≠ []
      · exact ⟨hg.2, hg.1⟩
      · rw [if_neg hg] at h; exact Bool.noConfusion h
  · cases hc : QString.contains (QString.trimmed streamTitle) " - ".toList with
    | true => exact (hsucc hc).1
    | false =>
      rcases h with h | h
      · rw [hc] at h; exact Bool.noConfusion h
      · rw [parseArtistTitle_of_not_contains _ _ hc, if_pos ⟨h.2, h.1⟩]
  · obtain ⟨x, y, hx, hy, hxne, hyne⟩ := parseArtistTitle_success _ _ h
    rw [hx, hy]
    exact ⟨hxne, hyne, QString.startsWithSpace_trimmed x, QString.endsWithSpace_trimmed x,
      QString.startsWithSpace_trimmed y, QString.endsWithSpace_trimmed y⟩

/-- C19: when the trimmed text `t` contains " - ", with `i` the position of its first
occurrence, `parseArtistTitle` yields the artist `trim(t[0..i))` and the title
`trim(t[i+3..])`: the first segment of the split is `t[0..i)` and the rejoined remainder is
`t[i+3..]`.  So the artist does not contain " - ", and the first segment, " - " and the
rejoined remainder concatenate to `t`. -/
theorem C19_split_rejoin_is_first_occurrence (streamTitle artistOrStation artist title : QString)
    (h : QString.contains (QString.trimmed streamTitle) " - ".toList = true) :
    ∃ i, QString.indexOf (QString.trimmed streamTitle) " - ".toList = some i
      ∧ (parseArtistTitle streamTitle artistOrStation artist title).2
        = (QString.trimmed ((QString.trimmed streamTitle).take i),
            QString.trimmed ((QString.trimmed streamTitle).drop (i + 3)))
      ∧ (QString.split (QString.trimmed streamTitle) " - ".toList).headD []
        = (QString.trimmed streamTitle).take i
      ∧ QStringList.join ((QString.split (QString.trimmed streamTitle) " - ".toList).drop 1)
          " - ".toList = (QString.trimmed streamTitle).drop (i + 3)
      ∧ QString.contains (parseArtistTitle streamTitle artistOrStation artist title).2.1
          " - ".toList = false
      ∧ (QString.split (QString.trimmed streamTitle) " - ".toList).headD [] ++ " - ".toList
          ++ QStringList.join
              ((QString.split (QString.trimmed streamTitle) " - ".toList).drop 1)
              " - ".toList
        = QString.trimmed streamTitle := by
  rw [← QString.indexOf_isSome, Option.isSome_iff_exists] at h
  obtain ⟨i, hi⟩ := h
  have hsplit := QString.splitFrom_of_indexOf_some separator_ne_nil
    (QString.trimmed streamTitle) [] i hi
  have h3 : " - ".toList.length = 3 := rfl
  rw [h3, List.nil_append] at hsplit
  have hjoin := QString.join_splitFrom separator_ne_nil _
    ((QString.trimmed streamTitle).drop (i + 3)) [] (le_refl _)
  rw [List.nil_append] at hjoin
  have hdec := QString.take_append_drop_of_indexOf hi
  rw [h3] at hdec
  have hhead : (QString.split (QString.trimmed streamTitle) " - ".toList).headD []
      = (QString.trimmed streamTitle).take i := by
    rw [QString.split, hsplit]; rfl
  have htail : QStringList.join
      ((QString.split (QString.trimmed streamTitle) " - ".toList).drop 1) " - ".toList
      = (QString.trimmed streamTitle).drop (i + 3) := by
    rw [QString.split, hsplit]
    simp only [List.drop_succ_cons, List.drop_zero]
    exact hjoin
  refine ⟨i, hi, ?_, hhead, htail, ?_, ?_⟩
  · rw [parseArtistTitle_of_indexOf _ _ _ _ i hi]
  · rw [parseArtistTitle_of_indexOf _ _ _ _ i hi, QString.contains_eq_false_iff]
    intro hin
    exact QString.not_infix_take_of_indexOf separator_ne_nil hi
      (hin.trans (QString.trimmed_infix _))
  · rw [hhead, htail, hdec]

/-- C19, at the text "  x -  - y - ": the first " - " of the trimmed text is at position 1,
the artist is "x" and the title is "- y -". -/
theorem C19_split_rejoin_is_first_occurrence_witness :
    QString.contains (QString.trimmed "  x -  - y - ".toList) " - ".toList = true
      ∧ ∃ i, QString.indexOf (QString.trimmed "  x -  - y - ".toList) " - ".toList = some i
        ∧ (parseArtistTitle "  x -  - y - ".toList [] [] []).2
          = (QString.trimmed ((QString.trimmed "  x -  - y - ".toList).take i),
              QString.trimmed ((QString.trimmed "  x -  - y - ".toList).drop (i + 3))) := by
  obtain ⟨i, h1, h2, _⟩ := C19_split_rejoin_is_first_occurrence "  x -  - y - ".toList
    [] [] [] (by decide)
  exact ⟨by decide, i, h1, h2⟩

/-- The key of a request whose text parses, and why the outer `trimmed()` is idle. -/
theorem requestKey_of_success [QUnicodeTables] (title artistOrStation : QString)
    (h : (parseArtistTitle title artistOrStation [] []).1 = true) :
    requestKey title artistOrStation
        = QString.toLower
            (QString.trimmed (requestArtist title artistOrStation) ++ " - ".toList
              ++ QString.trimmed (requestTitle title artistOrStation))
      ∧ QString.trimmed
          (QString.arg (requestArtist title artistOrStation)
            (requestTitle title artistOrStation))
        = QString.arg (requestArtist title artistOrStation)
            (requestTitle title artistOrStation)
      ∧ QString.trimmed (requestArtist title artistOrStation)
        = requestArtist title artistOrStation
      ∧ QString.trimmed (requestTitle title artistOrStation)
        = requestTitle title artistOrStation
      ∧ requestArtist title artistOrStation ≠ []
      ∧ requestTitle title artistOrStation ≠ [] := by
  obtain ⟨x, y, hx, hy, hxne, hyne⟩ := parseArtistTitle_success _ _ h
  have ha : requestArtist title artistOrStation = QString.trimmed x := hx
  have ht : requestTitle title artistOrStation = QString.trimmed y := hy
  have harg : QString.trimmed (QString.arg (QString.trimmed x) (QString.trimmed y))
      = QString.arg (QString.trimmed x) (QString.trimmed y) := by
    apply QString.trimmed_eq_self
    · unfold QString.arg
      rw [List.append_assoc, QString.startsWithSpace_append _ hxne]
      exact QString.startsWithSpace_trimmed x
    · unfold QString.arg
      rw [QString.endsWithSpace_append _ hyne]
      exact QString.endsWithSpace_trimmed y
  unfold requestKey canonicalKey
  rw [ha, ht, harg, QString.trimmed_trimmed, QString.trimmed_trimmed]
  exact ⟨rfl, rfl, rfl, rfl, hxne, hyne⟩

/-- C12: for every request whose text parses, with (artist, title) the parsed pair, the key
is `lowercase(trim(artist) + " - " + trim(title))`; both parts are non-empty and already
trimmed, and the `trimmed()` applied to the concatenation changes nothing. -/
theorem C12_canonical_key_formula [QUnicodeTables] (title artistOrStation : QString)
    (h : (parseArtistTitle title artistOrStation [] []).1 = true) :
    requestKey title artistOrStation
        = QString.toLower
            (QString.trimmed (requestArtist title artistOrStation) ++ " - ".toList
              ++ QString.trimmed (requestTitle title artistOrStation))
      ∧ QString.trimmed
          (QString.arg (requestArtist title artistOrStation)
            (requestTitle title artistOrStation))
        = QString.arg (requestArtist title artistOrStation)
            (requestTitle title artistOrStation)
      ∧ QString.trimmed (requestArtist title artistOrStation)
        = requestArtist title artistOrStation
      ∧ QString.trimmed (requestTitle title artistOrStation)
        = requestTitle title artistOrStation
      ∧ requestArtist title artistOrStation ≠ []
      ∧ requestTitle title artistOrStation ≠ [] :=
  requestKey_of_success title artistOrStation h

/-- C12, at the request ("  Daft Punk  -  One More Time ", "StationX"). -/
theorem C12_canonical_key_formula_witness :
    (parseArtistTitle "  Daft Punk  -  One More Time ".toList "StationX".toList [] []).1 = true
      ∧ requestKey "  Daft Punk  -  One More Time ".toList "StationX".toList
        = "daft punk - one more time".toList :=
  ⟨by decide,
    (C12_canonical_key_formula "  Daft Punk  -  One More Time ".toList "StationX".toList
      (by decide)).1.trans (by decide)⟩

end RadioArtworkResolver

/-! ## Lower-casing -/

/-- The lower-case forms of the letters `A` to `Z` are Basic Latin characters that are their
own lower-case form, and none is a space or a hyphen-minus. -/
theorem Char.ofNat_upper_add (n : Nat) (h1 : 65 ≤ n) (h2 : n ≤ 90) :
    Char.ofNat (n + 32) ≠ ' ' ∧ Char.ofNat (n + 32) ≠ '-'
      ∧ (Char.ofNat (n + 32)).toNat < 128
      ∧ (Char.ofNat (n + 32)).toLower = Char.ofNat (n + 32) := by
  interval_cases n <;> decide

theorem Char.toLower_of_upper {c : Char} (h : 65 ≤ c.toNat ∧ c.toNat ≤ 90) :
    c.toLower = Char.ofNat (c.toNat + 32) := by
  unfold Char.toLower
  dsimp only
  rw [if_pos h]

theorem Char.toLower_of_not_upper {c : Char} (h : ¬ (65 ≤ c.toNat ∧ c.toNat ≤ 90)) :
    c.toLower = c := by
  unfold Char.toLower
  dsimp only
  rw [if_neg h]

theorem Char.toLower_eq_space {c : Char} (h : c.toLower = ' ') : c = ' ' := by
  by_cases hc : 65 ≤ c.toNat ∧ c.toNat ≤ 90
  · rw [Char.toLower_of_upper hc] at h
    exact absurd h (Char.ofNat_upper_add c.toNat hc.1 hc.2).1
  · rw [Char.toLower_of_not_upper hc] at h
    exact h

theorem Char.toLower_eq_dash {c : Char} (h : c.toLower = '-') : c = '-' := by
  by_cases hc : 65 ≤ c.toNat ∧ c.toNat ≤ 90
  · rw [Char.toLower_of_upper hc] at h
    exact absurd h (Char.ofNat_upper_add c.toNat hc.1 hc.2).2.1
  · rw [Char.toLower_of_not_upper hc] at h
    exact h

theorem Char.toLower_toLower (c : Char) : c.toLower.toLower = c.toLower := by
  by_cases hc : 65 ≤ c.toNat ∧ c.toNat ≤ 90
  · rw [Char.toLower_of_upper hc]
    exact (Char.ofNat_upper_add c.toNat hc.1 hc.2).2.2.2
  · rw [Char.toLower_of_not_upper hc, Char.toLower_of_not_upper hc]

theorem Char.toLower_toNat_lt {c : Char} (h : c.toNat < 128) : c.toLower.toNat < 128 := by
  by_cases hc : 65 ≤ c.toNat ∧ c.toNat ≤ 90
  · rw [Char.toLower_of_upper hc]
    exact (Char.ofNat_upper_add c.toNat hc.1 hc.2).2.2.1
  · rw [Char.toLower_of_not_upper hc]; exact h

namespace QString

/-- Changing the case of a Basic Latin letter does not change its lower-case form. -/
theorem lowerCase_toLower [QUnicodeTables] (c : Char) :
    QUnicodeTables.lowerCase c.toLower = QUnicodeTables.lowerCase c := by
  by_cases h : c.toNat < 128
  · rw [QUnicodeTables.lowerCase_basicLatin c h,
      QUnicodeTables.lowerCase_basicLatin c.toLower (Char.toLower_toNat_lt h),
      Char.toLower_toLower]
  · rw [Char.toLower_of_not_upper (by omega)]

theorem toLower_append [QUnicodeTables] (a b : QString) :
    toLower (a ++ b) = toLower a ++ toLower b := by
  induction a with
  | nil => rfl
  | cons c rest ih =>
    have e : toLower (c :: rest ++ b) = QUnicodeTables.lowerCase c ++ toLower (rest ++ b) := rfl
    rw [e, ih, toLower, List.append_assoc]

/-- On Basic Latin text `toLower` lower-cases the letters `A` to `Z`. -/
theorem toLower_of_basicLatin [QUnicodeTables] :
    ∀ s : QString, (∀ c ∈ s, c.toNat < 128) → toLower s = s.map Char.toLower := by
  intro s
  induction s with
  | nil => intro _; rfl
  | cons c rest ih =>
    intro h
    rw [toLower, QUnicodeTables.lowerCase_basicLatin c (h c (List.mem_cons_self _ _)),
      ih (fun d hd => h d (List.mem_cons_of_mem _ hd))]
    rfl

/-- Texts that differ only in the case of Basic Latin letters have the same lower-case
form. -/
theorem toLower_eq_of_map_toLower_eq [QUnicodeTables] :
    ∀ a b : QString, a.map Char.toLower = b.map Char.toLower → toLower a = toLower b := by
  intro a
  induction a with
  | nil =>
    intro b h
    cases b with
    | nil => rfl
    | cons d r => cases h
  | cons c rest ih =>
    intro b h
    cases b with
    | nil => cases h
    | cons d r =>
      simp only [List.map_cons, List.cons.injEq] at h
      rw [toLower, toLower, ih r h.2, ← lowerCase_toLower c, ← lowerCase_toLower d, h.1]

/-- A space or hyphen-minus in the lower-case form of a code point is that code point. -/
theorem lowerCase_eq_of_mem [QUnicodeTables] {c d : Char} (hd : d = ' ' ∨ d = '-')
    (hm : d ∈ QUnicodeTables.lowerCase c) : QUnicodeTables.lowerCase c = [d] ∧ c = d := by
  by_cases h : c.toNat < 128
  · rw [QUnicodeTables.lowerCase_basicLatin c h, List.mem_singleton] at hm
    have hcd : c = d := by
      rcases hd with hd | hd
      · rw [hd] at hm ⊢; exact Char.toLower_eq_space hm.symm
      · rw [hd] at hm ⊢; exact Char.toLower_eq_dash hm.symm
    rw [QUnicodeTables.lowerCase_basicLatin c h, ← hm]
    exact ⟨rfl, hcd⟩
  · have ho := QUnicodeTables.lowerCase_other c (by omega)
    rcases hd with hd | hd
    · rw [hd] at hm; exact absurd hm ho.1
    · rw [hd] at hm; exact absurd hm ho.2

/-- A lower-case form that starts with a space or hyphen-minus comes from a text that
starts with it. -/
theorem toLower_eq_cons [QUnicodeTables] {l x : QString} {d : Char} (hd : d = ' ' ∨ d = '-')
    (h : toLower l = d :: x) : ∃ r, l = d :: r ∧ toLower r = x := by
  cases l with
  | nil => cases h
  | cons c r =>
    rw [toLower] at h
    cases hb : QUnicodeTables.lowerCase c with
    | nil => exact absurd hb (QUnicodeTables.lowerCase_ne_nil c)
    | cons y ys =>
      rw [hb, List.cons_append, List.cons.injEq] at h
      have hm : d ∈ QUnicodeTables.lowerCase c := by
        rw [hb, h.1]; exact List.mem_cons_self _ _
      obtain ⟨h1, h2⟩ := lowerCase_eq_of_mem hd hm
      rw [hb, List.cons.injEq] at h1
      rw [h1.2, List.nil_append] at h
      exact ⟨r, by rw [h2], h.2⟩

theorem prefix_of_toLower_eq [QUnicodeTables] {l x : QString}
    (h : toLower l = " - ".toList ++ x) : " - ".toList <+: l := by
  have e : " - ".toList ++ x = ' ' :: '-' :: ' ' :: x := rfl
  rw [e] at h
  obtain ⟨r1, rfl, h1⟩ := toLower_eq_cons (Or.inl rfl) h
  obtain ⟨r2, rfl, h2⟩ := toLower_eq_cons (Or.inr rfl) h1
  obtain ⟨r3, rfl, _⟩ := toLower_eq_cons (Or.inl rfl) h2
  exact ⟨r3, rfl⟩

/-- An occurrence of " - " in the lower-case form of a text is an occurrence in the text. -/
theorem infix_of_infix_toLower [QUnicodeTables] :
    ∀ (l s t : QString), toLower l = s ++ (" - ".toList ++ t) → " - ".toList <:+: l := by
  intro l
  induction l with
  | nil =>
    intro s t h
    have := congrArg List.length h
    simp [toLower] at this
    omega
  | cons c r ih =>
    intro s t h
    rw [toLower, List.append_eq_append_iff] at h
    rcases h with ⟨a, _, h2⟩ | ⟨b, h1, h2⟩
    · exact List.infix_cons (ih a t h2)
    · cases b with
      | nil =>
        rw [List.nil_append] at h2
        exact List.infix_cons (ih [] t h2.symm)
      | cons y ys =>
        have e : " - ".toList ++ t = ' ' :: ("- ".toList ++ t) := rfl
        rw [e, List.cons_append, List.cons.injEq] at h2
        have hm : ' ' ∈ QUnicodeTables.lowerCase c := by
          rw [h1, ← h2.1]; simp
        obtain ⟨hb, _⟩ := lowerCase_eq_of_mem (Or.inl rfl) hm
        have hs : s = [] := by
          rw [hb] at h1
          cases s with
          | nil => rfl
          | cons z zs =>
            have := congrArg List.length h1
            simp at this
        subst hs
        have hfull : toLower (c :: r) = " - ".toList ++ t := by
          rw [toLower, h1, List.nil_append, List.cons_append, ← h2.2, ← h2.1]
          rfl
        exact (prefix_of_toLower_eq hfull).isInfix

theorem toLower_separator [QUnicodeTables] : toLower " - ".toList = " - ".toList := by
  rw [toLower_of_basicLatin _ (by decide)]; decide

theorem toLower_separator_start [QUnicodeTables] : toLower " -".toList = " -".toList := by
  rw [toLower_of_basicLatin _ (by decide)]; decide

end QString

namespace RadioArtworkResolver

/-- Two lower-cased concatenations `artist + " - " + title` are equal only if their parts
are, provided no " - " starts inside either artist. -/
theorem toLower_arg_injective [QUnicodeTables] (a1 t1 a2 t2 : QString)
    (h1 : QString.contains (a1 ++ " -".toList) " - ".toList = false)
    (h2 : QString.contains (a2 ++ " -".toList) " - ".toList = false)
    (hk : QString.toLower (QString.arg a1 t1) = QString.toLower (QString.arg a2 t2)) :
    QString.toLower a1 = QString.toLower a2 ∧ QString.toLower t1 = QString.toLower t2 := by
  have e : ∀ a t : QString, QString.toLower (QString.arg a t)
      = QString.toLower a ++ (" -".toList ++ [' ']) ++ QString.toLower t := by
    intro a t
    unfold QString.arg
    rw [QString.toLower_append, QString.toLower_append, QString.toLower_separator]
    rfl
  have n : ∀ a : QString, QString.contains (a ++ " -".toList) " - ".toList = false →
      ¬ (" -".toList ++ [' ']) <:+: (QString.toLower a ++ " -".toList) := by
    intro a ha hin
    rw [QString.contains_eq_false_iff] at ha
    apply ha
    obtain ⟨s, t, hst⟩ := hin
    apply QString.infix_of_infix_toLower (a ++ " -".toList) s t
    rw [QString.toLower_append, QString.toLower_separator_start, ← hst, List.append_assoc]
    rfl
  have i1 := QString.indexOf_append_of_not_infix " -".toList ' ' (QString.toLower t1)
    (QString.toLower a1) (n a1 h1)
  have i2 := QString.indexOf_append_of_not_infix " -".toList ' ' (QString.toLower t2)
    (QString.toLower a2) (n a2 h2)
  rw [e, e] at hk
  rw [hk, i2] at i1
  have hlen : (QString.toLower a1).length = (QString.toLower a2).length :=
    (Option.some.inj i1).symm
  simp only [List.append_assoc] at hk
  obtain ⟨ha, hrest⟩ := List.append_inj hk hlen
  exact ⟨ha, List.append_cancel_left (List.append_cancel_left hrest)⟩

/-- The key of a request whose parsed pair is Basic Latin text, in every table. -/
theorem requestKey_of_basicLatin [QUnicodeTables] (title artistOrStation : QString)
    (h : ∀ c ∈ QString.trimmed
        (QString.arg (requestArtist title artistOrStation)
          (requestTitle title artistOrStation)), c.toNat < 128) :
    requestKey title artistOrStation
      = (QString.trimmed
          (QString.arg (requestArtist title artistOrStation)
            (requestTitle title artistOrStation))).map Char.toLower := by
  unfold requestKey canonicalKey
  rw [QString.toLower_of_basicLatin _ h]

/-- The two collisions of keys are collisions whatever Qt's tables are outside the Basic
Latin block. -/
theorem requestKey_collisions [QUnicodeTables] :
    (requestKey "A - B - C".toList [] = requestKey "C".toList "A - B".toList
        ∧ QString.toLower (requestArtist "A - B - C".toList [])
          ≠ QString.toLower (requestArtist "C".toList "A - B".toList))
      ∧ (requestKey "x -\t - y".toList [] = requestKey "x - - y".toList []
        ∧ QString.toLower (requestArtist "x -\t - y".toList [])
          ≠ QString.toLower (requestArtist "x - - y".toList [])) := by
  refine ⟨⟨?_, ?_⟩, ?_, ?_⟩
  · rw [requestKey_of_basicLatin _ _ (by decide), requestKey_of_basicLatin _ _ (by decide)]
    decide
  · rw [QString.toLower_of_basicLatin _ (by decide),
      QString.toLower_of_basicLatin (requestArtist "C".toList "A - B".toList) (by decide)]
    decide
  · rw [requestKey_of_basicLatin _ _ (by decide), requestKey_of_basicLatin _ _ (by decide)]
    decide
  · rw [QString.toLower_of_basicLatin _ (by decide),
      QString.toLower_of_basicLatin (requestArtist "x - - y".toList []) (by decide)]
    decide

/-- C13, as stated, fails.  The texts "A - B - C" (no station) and "C" (station "A - B")
both parse and derive the key "a - b - c", with the artists "A" and "A - B"; and the texts
"x -", tab, " - y" and "x - - y" both parse through the separator and derive the key
"x - - y", with the artists "x -" and "x".  The texts are Basic Latin, so that the outcome
is the same in every table (`requestKey_collisions`). -/
theorem C13_equal_keys_for_different_artists :
    ((parseArtistTitle "A - B - C".toList [] [] []).1 = true
        ∧ (parseArtistTitle "C".toList "A - B".toList [] []).1 = true
        ∧ requestKey "A - B - C".toList [] = requestKey "C".toList "A - B".toList
        ∧ QString.toLower (requestArtist "A - B - C".toList [])
          ≠ QString.toLower (requestArtist "C".toList "A - B".toList))
      ∧ ((parseArtistTitle "x -\t - y".toList [] [] []).1 = true
        ∧ (parseArtistTitle "x - - y".toList [] [] []).1 = true
        ∧ requestKey "x -\t - y".toList [] = requestKey "x - - y".toList []
        ∧ QString.toLower (requestArtist "x -\t - y".toList [])
          ≠ QString.toLower (requestArtist "x - - y".toList [])) := by
  decide

/-- C13, amended: for two requests whose texts parse and in whose parsed artists no " - "
starts (the artist followed by " -" does not contain " - "), equal keys imply that the
artists are equal up to letter case and the titles are equal up to letter case, that is,
have the same `toLower`.  This holds for the Unicode lower-casing of Qt, which may change
the length of a text: only how it treats Basic Latin characters matters. -/
theorem C13_key_injective_without_inner_separator [QUnicodeTables]
    (title1 station1 title2 station2 : QString)
    (p1 : (parseArtistTitle title1 station1 [] []).1 = true)
    (p2 : (parseArtistTitle title2 station2 [] []).1 = true)
    (h1 : QString.contains (requestArtist title1 station1 ++ " -".toList) " - ".toList
      = false)
    (h2 : QString.contains (requestArtist title2 station2 ++ " -".toList) " - ".toList
      = false)
    (hk : requestKey title1 station1 = requestKey title2 station2) :
    QString.toLower (requestArtist title1 station1)
        = QString.toLower (requestArtist title2 station2)
      ∧ QString.toLower (requestTitle title1 station1)
        = QString.toLower (requestTitle title2 station2) := by
  have k1 := requestKey_of_success title1 station1 p1
  have k2 := requestKey_of_success title2 station2 p2
  apply toLower_arg_injective _ _ _ _ h1 h2
  have e1 : requestKey title1 station1
      = QString.toLower (QString.arg (requestArtist title1 station1)
          (requestTitle title1 station1)) := by
    unfold requestKey canonicalKey; rw [k1.2.1]
  have e2 : requestKey title2 station2
      = QString.toLower (QString.arg (requestArtist title2 station2)
          (requestTitle title2 station2)) := by
    unfold requestKey canonicalKey; rw [k2.2.1]
  rw [← e1, ← e2]; exact hk

/-- C13, amended, at the texts "Daft Punk - One More Time" and " daft PUNK  -  one more
TIME ". -/
theorem C13_key_injective_without_inner_separator_witness :
    requestKey "Daft Punk - One More Time".toList []
        = requestKey " daft PUNK  -  one more TIME ".toList "StationX".toList
      ∧ QString.toLower (requestArtist "Daft Punk - One More Time".toList [])
        = QString.toLower (requestArtist " daft PUNK  -  one more TIME ".toList
            "StationX".toList) :=
  ⟨by decide,
    (C13_key_injective_without_inner_separator "Daft Punk - One More Time".toList []
      " daft PUNK  -  one more TIME ".toList "StationX".toList (by decide) (by decide)
      (by decide) (by decide) (by decide)).1⟩

end RadioArtworkResolver

namespace RadioArtworkResolver

/-! ## Eligibility -/

/-- On a Basic Latin host the test is made on the host with `A` to `Z` lower-cased. -/
theorem isDiFmStream_of_basicLatin [QUnicodeTables] (streamUrl : QUrl)
    (h : ∀ c ∈ streamUrl.hostName, c.toNat < 128) :
    isDiFmStream streamUrl
      = (QString.contains (streamUrl.hostName.map Char.toLower) "di.fm".toList
          || QString.contains (streamUrl.hostName.map Char.toLower)
              "digitallyimported".toList) := by
  unfold isDiFmStream
  dsimp only
  rw [QString.toLower_of_basicLatin streamUrl.hostName h]

/-- C8: `isDiFmStream` is true exactly when the lower-cased host contains "di.fm" or
"digitallyimported".  The test is blind to letter case and to the rest of the URL (and takes
no resolver state): every URL whose host differs from the host of `streamUrl` at most in the
case of Basic Latin letters gets the same answer, in particular the URL that has only that
host.  `https://listen.di.fm/public3` is eligible, also with its host written in capitals,
a host containing `DigitallyImported` in mixed case is eligible, and
`https://example.com/stream` is not. -/
theorem C8_eligibility_is_host_substring_test [QUnicodeTables] (streamUrl : QUrl) :
    (isDiFmStream streamUrl = true ↔
        (QString.contains (QString.toLower streamUrl.hostName) "di.fm".toList = true
          ∨ QString.contains (QString.toLower streamUrl.hostName)
              "digitallyimported".toList = true))
      ∧ (∀ other : QUrl,
          other.hostName.map Char.toLower = streamUrl.hostName.map Char.toLower →
          isDiFmStream other = isDiFmStream streamUrl)
      ∧ isDiFmStream streamUrl = isDiFmStream { host := streamUrl.host }
      ∧ isDiFmStream diFmUrl = true
      ∧ isDiFmStream capitalDiFmUrl = true
      ∧ isDiFmStream mixedCaseUrl = true
      ∧ isDiFmStream exampleUrl = false := by
  refine ⟨?_, ?_, rfl, ?_, ?_, ?_, ?_⟩
  · simp [isDiFmStream]
  · intro other h
    unfold isDiFmStream
    dsimp only
    rw [QString.toLower_eq_of_map_toLower_eq _ _ h]
  · rw [isDiFmStream_of_basicLatin diFmUrl (by decide)]; decide
  · rw [isDiFmStream_of_basicLatin capitalDiFmUrl (by decide)]; decide
  · rw [isDiFmStream_of_basicLatin mixedCaseUrl (by decide)]; decide
  · rw [isDiFmStream_of_basicLatin exampleUrl (by decide)]; decide

/-- C8, at the host `LISTEN.DI.FM`: it gets the answer of `listen.di.fm`, which is yes. -/
theorem C8_eligibility_is_host_substring_test_witness :
    capitalDiFmUrl.hostName.map Char.toLower = diFmUrl.hostName.map Char.toLower
      ∧ isDiFmStream capitalDiFmUrl = isDiFmStream diFmUrl
      ∧ isDiFmStream capitalDiFmUrl = true :=
  ⟨by decide, (C8_eligibility_is_host_substring_test diFmUrl).2.1 capitalDiFmUrl (by decide),
    (C8_eligibility_is_host_substring_test diFmUrl).2.2.2.2.1⟩

end RadioArtworkResolver
